import Mathlib

/-!
# Verification of the history (undo/redo) engine of `factorio-blueprint-editor`

Shallow embedding of `src/factorio-data/history.ts`.

Modelling conventions:

* JavaScript values stored in mutation targets are modelled by `JVal`:
  `undefined`, string primitives, and nested records.  Records are modelled
  as finite maps in a canonical key-sorted association-list form; JavaScript
  property-insertion order is not observed by the history module (it never
  iterates object properties), so property assignment `obj[k] = v` is
  modelled as ordered insertion and `delete obj[k]` as erasure.
* Traversal of a path into a non-record intermediate value is modelled as a
  fault (`none`): for an `undefined` intermediate the JavaScript code throws,
  and the design documentation declares the behaviour for other non-record
  intermediates undefined.
* A thrown JavaScript exception is modelled by a `fault` result carrying the
  state at the moment of the throw (mutations already performed stay
  performed, statements after the throwing expression do not run).
* Emit callbacks (`m_Emits`) are arbitrary caller-supplied procedures; they
  are modelled as opaque identifiers, and "running" a callback appends its
  identifier to an observable trace.
* `console.log` output is not modelled, but the fact that logging reads
  `data.entity_number` of every action (and can therefore throw) is.
-/

namespace FBE

mutual
/-- A JavaScript value as stored in the mutation targets of the history
module: `undefined`, a string primitive, or a nested record. -/
inductive JVal : Type where
  | undef : JVal
  | str : String → JVal
  | obj : JFields → JVal
deriving DecidableEq
/-- The own properties of a record, as a key-sorted association list. -/
inductive JFields : Type where
  | nil : JFields
  | cons : String → JVal → JFields → JFields
deriving DecidableEq
end

/-! ## A computable strict order on keys -/

/-- Strict lexicographic order on character lists (by code point). -/
def keyLtL : List Char → List Char → Bool
  | [], [] => false
  | [], _ :: _ => true
  | _ :: _, [] => false
  | a :: as, b :: bs =>
    if a.toNat < b.toNat then true
    else if b.toNat < a.toNat then false
    else keyLtL as bs

/-- Strict order on record keys, used to keep fields canonically sorted. -/
def keyLt (a b : String) : Bool := keyLtL a.data b.data

theorem keyLtL_irrefl : ∀ l : List Char, keyLtL l l = false
  | [] => rfl
  | a :: as => by simp [keyLtL, keyLtL_irrefl as]

theorem keyLt_irrefl (a : String) : keyLt a a = false := keyLtL_irrefl a.data

theorem keyLtL_nil_right : ∀ l : List Char, keyLtL l [] = false
  | [] => rfl
  | _ :: _ => rfl

theorem keyLtL_trans : ∀ {l₁ l₂ l₃ : List Char},
    keyLtL l₁ l₂ = true → keyLtL l₂ l₃ = true → keyLtL l₁ l₃ = true
  | _, l₂, [], _, h₂ => by rw [keyLtL_nil_right] at h₂; exact Bool.noConfusion h₂
  | [], _, _ :: _, _, _ => rfl
  | _ :: _, [], _, h₁, _ => by rw [keyLtL_nil_right] at h₁; exact Bool.noConfusion h₁
  | a :: as, b :: bs, c :: cs, h₁, h₂ => by
    simp only [keyLtL] at h₁ h₂ ⊢
    by_cases hab : a.toNat < b.toNat
    · by_cases hbc : b.toNat < c.toNat
      · simp [Nat.lt_trans hab hbc]
      · rw [if_neg hbc] at h₂
        by_cases hcb : c.toNat < b.toNat
        · rw [if_pos hcb] at h₂; exact absurd h₂ (by simp)
        · have hbceq : b.toNat = c.toNat := by omega
          simp [hbceq ▸ hab]
    · rw [if_neg hab] at h₁
      by_cases hba : b.toNat < a.toNat
      · rw [if_pos hba] at h₁; exact absurd h₁ (by simp)
      · rw [if_neg hba] at h₁
        have habeq : a.toNat = b.toNat := by omega
        by_cases hbc : b.toNat < c.toNat
        · simp [habeq ▸ hbc]
        · rw [if_neg hbc] at h₂
          by_cases hcb : c.toNat < b.toNat
          · rw [if_pos hcb] at h₂; exact absurd h₂ (by simp)
          · rw [if_neg hcb] at h₂
            have hA : ¬ a.toNat < c.toNat := by omega
            have hC : ¬ c.toNat < a.toNat := by omega
            simp only [hA, if_false, hC]
            exact keyLtL_trans h₁ h₂

theorem keyLt_trans {a b c : String} (h₁ : keyLt a b = true) (h₂ : keyLt b c = true) :
    keyLt a c = true := keyLtL_trans h₁ h₂

theorem charEqOfToNat {a b : Char} (h : a.toNat = b.toNat) : a = b :=
  Char.ext_iff.2 (UInt32.ext h)

theorem stringEqOfData {a b : String} (h : a.data = b.data) : a = b := by
  cases a; cases b; exact congrArg String.mk h

theorem keyLtL_conn : ∀ {l₁ l₂ : List Char},
    keyLtL l₁ l₂ = false → keyLtL l₂ l₁ = false → l₁ = l₂
  | [], [], _, _ => rfl
  | [], _ :: _, h₁, _ => by exact Bool.noConfusion h₁
  | _ :: _, [], _, h₂ => by exact Bool.noConfusion h₂
  | a :: as, b :: bs, h₁, h₂ => by
    simp only [keyLtL] at h₁ h₂
    by_cases hab : a.toNat < b.toNat
    · rw [if_pos hab] at h₁; exact absurd h₁ (by simp)
    · rw [if_neg hab] at h₁
      by_cases hba : b.toNat < a.toNat
      · rw [if_pos hba] at h₂; exact absurd h₂ (by simp)
      · rw [if_neg hba] at h₁
        rw [if_neg hba, if_neg hab] at h₂
        have hc : a = b := charEqOfToNat (by omega)
        exact hc ▸ congrArg (List.cons a) (keyLtL_conn h₁ h₂)

theorem keyLt_conn {a b : String} (h₁ : keyLt a b = false) (h₂ : keyLt b a = false) : a = b :=
  stringEqOfData (keyLtL_conn h₁ h₂)

theorem keyLt_asymm {a b : String} (h : keyLt a b = true) : keyLt b a = false := by
  cases hh : keyLt b a
  · rfl
  · have : keyLt a a = true := keyLt_trans h hh
    rw [keyLt_irrefl] at this
    exact Bool.noConfusion this

theorem keyLt_ne {a b : String} (h : keyLt a b = true) : a ≠ b := by
  rintro rfl
  rw [keyLt_irrefl] at h
  exact Bool.noConfusion h

theorem keyLt_total {a b : String} (h : a ≠ b) : keyLt a b = true ∨ keyLt b a = true := by
  cases h₁ : keyLt a b
  · cases h₂ : keyLt b a
    · exact absurd (keyLt_conn h₁ h₂) h
    · exact Or.inr rfl
  · exact Or.inl rfl

/-! ## Record field operations

`lookupF` models reading an own property, `insertF` models `obj[k] = v`
(as canonically ordered insertion), `eraseF` models `delete obj[k]`. -/

/-- Read the own property `key`, if present. -/
def lookupF : JFields → String → Option JVal
  | .nil, _ => none
  | .cons k v rest, key => if k = key then some v else lookupF rest key

/-- Write property `key` (replace if present, insert in key order if not). -/
def insertF : JFields → String → JVal → JFields
  | .nil, key, v => .cons key v .nil
  | .cons k w rest, key, v =>
    if keyLt key k then .cons key v (.cons k w rest)
    else if key = k then .cons key v rest
    else .cons k w (insertF rest key v)

/-- Remove property `key` if present. -/
def eraseF : JFields → String → JFields
  | .nil, _ => .nil
  | .cons k w rest, key => if k = key then rest else .cons k w (eraseF rest key)

/-- `k₀` is strictly below every key of the field list. -/
def belowAll (k₀ : String) : JFields → Bool
  | .nil => true
  | .cons k _ rest => keyLt k₀ k && belowAll k₀ rest

mutual
/-- Well-formedness of a value: every record inside is canonically sorted. -/
def wfV : JVal → Bool
  | .undef => true
  | .str _ => true
  | .obj f => wfF f
/-- Well-formedness of a field list: keys strictly sorted, values well-formed. -/
def wfF : JFields → Bool
  | .nil => true
  | .cons k v rest => wfV v && wfF rest && belowAll k rest
end

theorem belowAll_lookup_none : ∀ {f : JFields} {k : String},
    belowAll k f = true → lookupF f k = none
  | .nil, _, _ => rfl
  | .cons k' _ rest, k, h => by
    simp only [belowAll, Bool.and_eq_true] at h
    simp only [lookupF]
    rw [if_neg (Ne.symm (keyLt_ne h.1))]
    exact belowAll_lookup_none h.2

theorem belowAll_lookup_some : ∀ {f : JFields} {k₀ k : String} {v : JVal},
    belowAll k₀ f = true → lookupF f k = some v → keyLt k₀ k = true
  | .cons k' _ rest, k₀, k, v, hb, hl => by
    simp only [belowAll, Bool.and_eq_true] at hb
    simp only [lookupF] at hl
    split at hl
    · rename_i he; exact he ▸ hb.1
    · exact belowAll_lookup_some hb.2 hl

theorem belowAll_insertF : ∀ {f : JFields} {k₀ k : String} {v : JVal},
    belowAll k₀ f = true → keyLt k₀ k = true → belowAll k₀ (insertF f k v) = true
  | .nil, _, _, _, _, hk => by simp [insertF, belowAll, hk]
  | .cons k' w rest, k₀, k, v, hb, hk => by
    simp only [belowAll, Bool.and_eq_true] at hb
    simp only [insertF]
    split
    · simp [belowAll, hk, hb.1, hb.2]
    · split
      · simp [belowAll, hk, hb.2]
      · simp [belowAll, hb.1, belowAll_insertF hb.2 hk]

theorem belowAll_eraseF : ∀ {f : JFields} {k₀ k : String},
    belowAll k₀ f = true → belowAll k₀ (eraseF f k) = true
  | .nil, _, _, _ => rfl
  | .cons k' w rest, k₀, k, hb => by
    simp only [belowAll, Bool.and_eq_true] at hb
    simp only [eraseF]
    split
    · exact hb.2
    · simp [belowAll, hb.1, belowAll_eraseF hb.2]

theorem lookupF_insertF_self : ∀ (f : JFields) (k : String) (v : JVal),
    lookupF (insertF f k v) k = some v
  | .nil, k, v => by simp [insertF, lookupF]
  | .cons k' w rest, k, v => by
    simp only [insertF]
    split
    · simp [lookupF]
    · split
      · simp [lookupF]
      · rename_i h1 h2
        simp only [lookupF]
        rw [if_neg (fun he => h2 (he.symm))]
        exact lookupF_insertF_self rest k v

theorem lookupF_insertF_ne : ∀ (f : JFields) {k k' : String} (v : JVal), k' ≠ k →
    lookupF (insertF f k v) k' = lookupF f k'
  | .nil, k, k', v, h => by
    simp only [insertF, lookupF]
    rw [if_neg (fun he => h (he.symm))]
  | .cons k₂ w rest, k, k', v, h => by
    simp only [insertF]
    split
    · simp only [lookupF]
      rw [if_neg (fun he => h (he.symm))]
    · split
      · rename_i h1 h2
        subst h2
        simp only [lookupF]
        rw [if_neg (fun he => h (he.symm)), if_neg (fun he => h (he.symm))]
      · simp only [lookupF]
        split
        · rfl
        · exact lookupF_insertF_ne rest v h

theorem lookupF_eraseF_ne : ∀ (f : JFields) {k k' : String}, k' ≠ k →
    lookupF (eraseF f k) k' = lookupF f k'
  | .nil, _, _, _ => rfl
  | .cons k₂ w rest, k, k', h => by
    simp only [eraseF]
    split
    · rename_i he
      subst he
      simp only [lookupF]
      rw [if_neg (fun he2 => h (he2.symm))]
    · simp only [lookupF]
      split
      · rfl
      · exact lookupF_eraseF_ne rest h

theorem lookupF_eraseF_self : ∀ {f : JFields} (k : String), wfF f = true →
    lookupF (eraseF f k) k = none
  | .nil, _, _ => rfl
  | .cons k' w rest, k, hwf => by
    simp only [wfF, Bool.and_eq_true] at hwf
    simp only [eraseF]
    split
    · rename_i he
      subst he
      exact belowAll_lookup_none hwf.2
    · simp only [lookupF]
      rename_i hne
      rw [if_neg hne]
      exact lookupF_eraseF_self k hwf.1.2

theorem eraseF_of_lookup_none : ∀ {f : JFields} {k : String},
    lookupF f k = none → eraseF f k = f
  | .nil, _, _ => rfl
  | .cons k' w rest, k, h => by
    simp only [lookupF] at h
    split at h
    · exact absurd h (by simp)
    · simp only [eraseF]
      rename_i hne
      rw [if_neg hne]
      rw [eraseF_of_lookup_none h]

theorem insertF_self_of_lookup : ∀ {f : JFields} {k : String} {v : JVal}, wfF f = true →
    lookupF f k = some v → insertF f k v = f
  | .cons k' w rest, k, v, hwf, hl => by
    simp only [wfF, Bool.and_eq_true] at hwf
    simp only [lookupF] at hl
    simp only [insertF]
    by_cases he : k' = k
    · subst he
      rw [if_pos rfl] at hl
      cases hl
      rw [if_neg (by rw [keyLt_irrefl]; simp), if_pos rfl]
    · rw [if_neg he] at hl
      have hlt : keyLt k' k = true := belowAll_lookup_some hwf.2 hl
      rw [if_neg (by rw [keyLt_asymm hlt]; simp), if_neg (fun hh => he hh.symm)]
      rw [insertF_self_of_lookup hwf.1.2 hl]

theorem eraseF_insertF_fresh : ∀ {f : JFields} {k : String} {v : JVal},
    lookupF f k = none → eraseF (insertF f k v) k = f
  | .nil, k, v, _ => by simp [insertF, eraseF]
  | .cons k' w rest, k, v, h => by
    simp only [lookupF] at h
    split at h
    · exact absurd h (by simp)
    · rename_i hne
      simp only [insertF]
      split
      · simp [eraseF]
      · split
        · rename_i he; exact absurd he.symm hne
        · simp only [eraseF]
          rw [if_neg hne]
          rw [eraseF_insertF_fresh h]

theorem insertF_front : ∀ {f : JFields} {k : String} {v : JVal},
    belowAll k f = true → insertF f k v = .cons k v f
  | .nil, _, _, _ => rfl
  | .cons k' w rest, k, v, hb => by
    simp only [belowAll, Bool.and_eq_true] at hb
    simp only [insertF]
    rw [if_pos hb.1]

theorem insertF_eraseF_self : ∀ {f : JFields} {k : String} {v : JVal}, wfF f = true →
    lookupF f k = some v → insertF (eraseF f k) k v = f
  | .cons k' w rest, k, v, hwf, hl => by
    simp only [wfF, Bool.and_eq_true] at hwf
    simp only [lookupF] at hl
    simp only [eraseF]
    by_cases he : k' = k
    · subst he
      rw [if_pos rfl] at hl
      cases hl
      rw [if_pos rfl]
      exact insertF_front hwf.2
    · rw [if_neg he] at hl
      rw [if_neg he]
      have hlt : keyLt k' k = true := belowAll_lookup_some hwf.2 hl
      simp only [insertF]
      rw [if_neg (by rw [keyLt_asymm hlt]; simp), if_neg (fun hh => he hh.symm)]
      rw [insertF_eraseF_self hwf.1.2 hl]

theorem belowAll_trans : ∀ {f : JFields} {k₀ k₁ : String},
    keyLt k₀ k₁ = true → belowAll k₁ f = true → belowAll k₀ f = true
  | .nil, _, _, _, _ => rfl
  | .cons k' w rest, k₀, k₁, hlt, hb => by
    simp only [belowAll, Bool.and_eq_true] at hb ⊢
    exact ⟨keyLt_trans hlt hb.1, belowAll_trans hlt hb.2⟩

theorem wfF_insertF : ∀ {f : JFields} {k : String} {v : JVal}, wfF f = true → wfV v = true →
    wfF (insertF f k v) = true
  | .nil, k, v, _, hv => by simp [insertF, wfF, belowAll, hv]
  | .cons k' w rest, k, v, hwf, hv => by
    simp only [wfF, Bool.and_eq_true] at hwf
    simp only [insertF]
    split
    · rename_i hlt
      simp only [wfF, belowAll, Bool.and_eq_true]
      exact ⟨⟨hv, ⟨⟨hwf.1.1, hwf.1.2⟩, hwf.2⟩⟩, hlt, belowAll_trans hlt hwf.2⟩
    · split
      · rename_i h1 h2
        subst h2
        simp [wfF, hv, hwf.1.2, hwf.2]
      · rename_i h1 h2
        have hne : k ≠ k' := fun hh => h2 hh
        have hlt : keyLt k' k = true := by
          rcases keyLt_total hne with h | h
          · exact absurd h (by simp [h1])
          · exact h
        simp only [wfF, Bool.and_eq_true]
        exact ⟨⟨hwf.1.1, wfF_insertF hwf.1.2 hv⟩, belowAll_insertF hwf.2 hlt⟩

theorem wfF_eraseF : ∀ {f : JFields} {k : String}, wfF f = true → wfF (eraseF f k) = true
  | .nil, _, _ => rfl
  | .cons k' w rest, k, hwf => by
    simp only [wfF, Bool.and_eq_true] at hwf
    simp only [eraseF]
    split
    · exact hwf.1.2
    · simp only [wfF, Bool.and_eq_true]
      exact ⟨⟨hwf.1.1, wfF_eraseF hwf.1.2⟩, belowAll_eraseF hwf.2⟩

theorem wfV_lookupF : ∀ {f : JFields} {k : String} {v : JVal}, wfF f = true →
    lookupF f k = some v → wfV v = true
  | .cons k' w rest, k, v, hwf, hl => by
    simp only [wfF, Bool.and_eq_true] at hwf
    simp only [lookupF] at hl
    split at hl
    · cases hl; exact hwf.1.1
    · exact wfV_lookupF hwf.1.2 hl

theorem extF : ∀ {f g : JFields}, wfF f = true → wfF g = true →
    (∀ k, lookupF f k = lookupF g k) → f = g
  | .nil, .nil, _, _, _ => rfl
  | .nil, .cons k v g', _, _, h => by
    have := h k
    simp [lookupF] at this
  | .cons k v f', .nil, _, _, h => by
    have := h k
    simp [lookupF] at this
  | .cons k1 v1 f', .cons k2 v2 g', hwf, hwg, h => by
    simp only [wfF, Bool.and_eq_true] at hwf hwg
    have hk : k1 = k2 := by
      by_contra hne
      have h1 : lookupF (JFields.cons k2 v2 g') k1 = some v1 := by
        rw [← h k1]; simp [lookupF]
      have h2 : lookupF (JFields.cons k1 v1 f') k2 = some v2 := by
        rw [h k2]; simp [lookupF]
      simp only [lookupF] at h1 h2
      rw [if_neg (fun hh => hne hh.symm)] at h1
      rw [if_neg hne] at h2
      have l1 : keyLt k2 k1 = true := belowAll_lookup_some hwg.2 h1
      have l2 : keyLt k1 k2 = true := belowAll_lookup_some hwf.2 h2
      rw [keyLt_asymm l2] at l1
      exact Bool.noConfusion l1
    subst hk
    have hv : v1 = v2 := by
      have := h k1
      simp [lookupF] at this
      exact this
    subst hv
    have hrest : f' = g' := by
      refine extF hwf.1.2 hwg.1.2 (fun k => ?_)
      by_cases he : k = k1
      · subst he
        rw [belowAll_lookup_none hwf.2, belowAll_lookup_none hwg.2]
      · have := h k
        simp only [lookupF] at this
        rw [if_neg (fun hh => he hh.symm), if_neg (fun hh => he hh.symm)] at this
        exact this
    rw [hrest]

/-! ## Value slots and path traversal (from `s_GetValue` / `s_SetValue` /
`s_DeleteValue` of the source) -/

/-- `IValueInfo<V>` of the source: a value together with an `exists` flag
(the source field `exists` is called `exs` here as `exists` is reserved). -/
structure Slot where
  value : JVal
  exs : Bool
deriving DecidableEq

/-- `s_GetValue`: read the slot at a path.  A path reaching a non-record
intermediate is a fault (`none`), as is an empty path. -/
def s_GetValue : JFields → List String → Option Slot
  | f, [k] =>
    match lookupF f k with
    | some v => some ⟨v, true⟩
    | none => some ⟨.undef, false⟩
  | f, k :: r :: rest =>
    match lookupF f k with
    | some (.obj g) => s_GetValue g (r :: rest)
    | _ => none
  | _, [] => none

/-- `s_SetValue`: write `v.value` at a path (the source receives the whole
slot and assigns its `value` field). -/
def s_SetValue : JFields → List String → Slot → Option JFields
  | f, [k], v => some (insertF f k v.value)
  | f, k :: r :: rest, v =>
    match lookupF f k with
    | some (.obj g) =>
      match s_SetValue g (r :: rest) v with
      | some g2 => some (insertF f k (.obj g2))
      | none => none
    | _ => none
  | _, [], _ => none

/-- `s_DeleteValue`: delete the property at a path. -/
def s_DeleteValue : JFields → List String → Option JFields
  | f, [k] => some (eraseF f k)
  | f, k :: r :: rest =>
    match lookupF f k with
    | some (.obj g) =>
      match s_DeleteValue g (r :: rest) with
      | some g2 => some (insertF f k (.obj g2))
      | none => none
    | _ => none
  | _, [] => none

theorem insertF_insertF_absorb : ∀ (f : JFields) (k : String) (v w : JVal),
    insertF (insertF f k v) k w = insertF f k w
  | .nil, k, v, w => by
    simp [insertF, keyLt_irrefl]
  | .cons k' u rest, k, v, w => by
    by_cases h1 : keyLt k k' = true
    · simp [insertF, h1, keyLt_irrefl]
    · by_cases h2 : k = k'
      · subst h2
        simp [insertF, keyLt_irrefl]
      · simp only [insertF, if_neg h1, if_neg h2]
        rw [insertF_insertF_absorb]

theorem wfV_obj {g : JFields} : wfV (.obj g) = wfF g := by simp [wfV]

/-- After a successful nested write the written node is a well-formed record
whenever the root and the written value are. -/
theorem wfF_s_SetValue : ∀ {f : JFields} {p : List String} {s : Slot} {f' : JFields},
    wfF f = true → wfV s.value = true → s_SetValue f p s = some f' → wfF f' = true
  | f, [k], s, f', hwf, hv, h => by
    simp only [s_SetValue] at h
    cases h
    exact wfF_insertF hwf hv
  | f, k :: r :: rest, s, f', hwf, hv, h => by
    simp only [s_SetValue] at h
    cases hl : lookupF f k with
    | none => rw [hl] at h; exact absurd h (by simp)
    | some v =>
      rw [hl] at h
      cases v with
      | undef => exact absurd h (by simp)
      | str _ => exact absurd h (by simp)
      | obj g =>
        simp only at h
        cases hs : s_SetValue g (r :: rest) s with
        | none => rw [hs] at h; exact absurd h (by simp)
        | some g2 =>
          rw [hs] at h
          cases h
          have hg : wfF g = true := by
            have := wfV_lookupF hwf hl
            rwa [wfV_obj] at this
          have hg2 : wfF g2 = true := wfF_s_SetValue hg hv hs
          exact wfF_insertF hwf (by rwa [wfV_obj])

theorem wfF_s_DeleteValue : ∀ {f : JFields} {p : List String} {f' : JFields},
    wfF f = true → s_DeleteValue f p = some f' → wfF f' = true
  | f, [k], f', hwf, h => by
    simp only [s_DeleteValue] at h
    cases h
    exact wfF_eraseF hwf
  | f, k :: r :: rest, f', hwf, h => by
    simp only [s_DeleteValue] at h
    cases hl : lookupF f k with
    | none => rw [hl] at h; exact absurd h (by simp)
    | some v =>
      rw [hl] at h
      cases v with
      | undef => exact absurd h (by simp)
      | str _ => exact absurd h (by simp)
      | obj g =>
        simp only at h
        cases hs : s_DeleteValue g (r :: rest) with
        | none => rw [hs] at h; exact absurd h (by simp)
        | some g2 =>
          rw [hs] at h
          cases h
          have hg : wfF g = true := by
            have := wfV_lookupF hwf hl
            rwa [wfV_obj] at this
          have hg2 : wfF g2 = true := wfF_s_DeleteValue hg hs
          exact wfF_insertF hwf (by rwa [wfV_obj])

/-- Setting over a previously set value and then restoring the old value at
the same path is the identity (slot `exists` flags are ignored by `set`). -/
theorem setValue_setValue_restore : ∀ {f f' : JFields} {p : List String} {w : JVal}
    {s t : Slot}, wfF f = true → s_GetValue f p = some ⟨w, true⟩ →
    s_SetValue f p s = some f' → t.value = w → s_SetValue f' p t = some f
  | f, f', [k], w, s, t, hwf, hg, hs, ht => by
    simp only [s_GetValue] at hg
    simp only [s_SetValue] at hs ⊢
    cases hl : lookupF f k with
    | none => rw [hl] at hg; simp at hg
    | some v =>
      rw [hl] at hg
      simp only [Option.some.injEq] at hg
      cases hs
      rw [insertF_insertF_absorb, ht]
      have hv : v = w := by cases hg; rfl
      subst hv
      rw [insertF_self_of_lookup hwf hl]
  | f, f', k :: r :: rest, w, s, t, hwf, hg, hs, ht => by
    simp only [s_GetValue] at hg
    simp only [s_SetValue] at hs ⊢
    cases hl : lookupF f k with
    | none => rw [hl] at hg; exact absurd hg (by simp)
    | some v =>
      rw [hl] at hg hs
      cases v with
      | undef => exact absurd hg (by simp)
      | str _ => exact absurd hg (by simp)
      | obj g =>
        simp only at hg hs
        cases hsg : s_SetValue g (r :: rest) s with
        | none => rw [hsg] at hs; exact absurd hs (by simp)
        | some g2 =>
          rw [hsg] at hs
          cases hs
          have hg' : wfF g = true := by
            have := wfV_lookupF hwf hl
            rwa [wfV_obj] at this
          rw [lookupF_insertF_self]
          simp only
          rw [setValue_setValue_restore hg' hg hsg ht]
          simp only
          rw [insertF_insertF_absorb, insertF_self_of_lookup hwf hl]

/-- After a successful write, reading the same path reports the written
value as existing. -/
theorem getValue_after_setValue : ∀ {f f' : JFields} {p : List String} {s : Slot},
    s_SetValue f p s = some f' → s_GetValue f' p = some ⟨s.value, true⟩
  | f, f', [k], s, hs => by
    simp only [s_SetValue] at hs
    cases hs
    simp [s_GetValue, lookupF_insertF_self]
  | f, f', k :: r :: rest, s, hs => by
    simp only [s_SetValue] at hs
    cases hl : lookupF f k with
    | none => rw [hl] at hs; exact absurd hs (by simp)
    | some v =>
      rw [hl] at hs
      cases v with
      | undef => exact absurd hs (by simp)
      | str _ => exact absurd hs (by simp)
      | obj g =>
        simp only at hs
        cases hsg : s_SetValue g (r :: rest) s with
        | none => rw [hsg] at hs; exact absurd hs (by simp)
        | some g2 =>
          rw [hsg] at hs
          cases hs
          simp only [s_GetValue, lookupF_insertF_self]
          exact getValue_after_setValue hsg

/-- Deleting a freshly written property restores the original structure. -/
theorem deleteValue_after_setValue_fresh : ∀ {f f' : JFields} {p : List String}
    {w : JVal} {s : Slot}, wfF f = true → s_GetValue f p = some ⟨w, false⟩ →
    s_SetValue f p s = some f' → s_DeleteValue f' p = some f
  | f, f', [k], w, s, hwf, hg, hs => by
    simp only [s_GetValue] at hg
    simp only [s_SetValue] at hs
    simp only [s_DeleteValue]
    cases hl : lookupF f k with
    | some v => rw [hl] at hg; simp at hg
    | none =>
      cases hs
      rw [eraseF_insertF_fresh hl]
  | f, f', k :: r :: rest, w, s, hwf, hg, hs => by
    simp only [s_GetValue] at hg
    simp only [s_SetValue] at hs
    simp only [s_DeleteValue]
    cases hl : lookupF f k with
    | none => rw [hl] at hg; exact absurd hg (by simp)
    | some v =>
      rw [hl] at hg hs
      cases v with
      | undef => exact absurd hg (by simp)
      | str _ => exact absurd hg (by simp)
      | obj g =>
        simp only at hg hs
        cases hsg : s_SetValue g (r :: rest) s with
        | none => rw [hsg] at hs; exact absurd hs (by simp)
        | some g2 =>
          rw [hsg] at hs
          cases hs
          have hg' : wfF g = true := by
            have := wfV_lookupF hwf hl
            rwa [wfV_obj] at this
          rw [lookupF_insertF_self]
          simp only
          rw [deleteValue_after_setValue_fresh hg' hg hsg]
          simp only
          rw [insertF_insertF_absorb, insertF_self_of_lookup hwf hl]

/-- Re-setting a previously deleted property restores the original
structure. -/
theorem setValue_after_deleteValue : ∀ {f f' : JFields} {p : List String}
    {w : JVal} {t : Slot}, wfF f = true → s_GetValue f p = some ⟨w, true⟩ →
    s_DeleteValue f p = some f' → t.value = w → s_SetValue f' p t = some f
  | f, f', [k], w, t, hwf, hg, hd, ht => by
    simp only [s_GetValue] at hg
    simp only [s_DeleteValue] at hd
    simp only [s_SetValue]
    cases hl : lookupF f k with
    | none => rw [hl] at hg; simp at hg
    | some v =>
      rw [hl] at hg
      cases hd
      have hv : v = w := by
        simp only [Option.some.injEq] at hg
        cases hg; rfl
      subst hv
      rw [ht, insertF_eraseF_self hwf hl]
  | f, f', k :: r :: rest, w, t, hwf, hg, hd, ht => by
    simp only [s_GetValue] at hg
    simp only [s_DeleteValue] at hd
    simp only [s_SetValue]
    cases hl : lookupF f k with
    | none => rw [hl] at hg; exact absurd hg (by simp)
    | some v =>
      rw [hl] at hg hd
      cases v with
      | undef => exact absurd hg (by simp)
      | str _ => exact absurd hg (by simp)
      | obj g =>
        simp only at hg hd
        cases hdg : s_DeleteValue g (r :: rest) with
        | none => rw [hdg] at hd; exact absurd hd (by simp)
        | some g2 =>
          rw [hdg] at hd
          cases hd
          have hg' : wfF g = true := by
            have := wfV_lookupF hwf hl
            rwa [wfV_obj] at this
          rw [lookupF_insertF_self]
          simp only
          rw [setValue_after_deleteValue hg' hg hdg ht]
          simp only
          rw [insertF_insertF_absorb, insertF_self_of_lookup hwf hl]

/-! ## Map targets

JavaScript `Map<K, V>` targets (with numeric keys here), modelled like the
records as canonically key-sorted association lists: the history module
never iterates a target map, so insertion order is unobservable. -/

/-- The contents of a `Map` target. -/
abbrev JMap := List (Nat × JVal)

/-- `map.get(k)` (and `map.has(k)` via `isSome`). -/
def mapLookup : JMap → Nat → Option JVal
  | [], _ => none
  | (k, v) :: rest, key => if k = key then some v else mapLookup rest key

/-- `map.set(k, v)`, as canonically ordered insertion. -/
def mapInsert : JMap → Nat → JVal → JMap
  | [], key, v => [(key, v)]
  | (k, w) :: rest, key, v =>
    if key < k then (key, v) :: (k, w) :: rest
    else if key = k then (key, v) :: rest
    else (k, w) :: mapInsert rest key v

/-- `map.delete(k)`. -/
def mapErase : JMap → Nat → JMap
  | [], _ => []
  | (k, w) :: rest, key => if k = key then rest else (k, w) :: mapErase rest key

/-- `k₀` is strictly below every key of the map. -/
def mapBelow (k₀ : Nat) : JMap → Bool
  | [] => true
  | (k, _) :: rest => decide (k₀ < k) && mapBelow k₀ rest

/-- Canonical sortedness of a map. -/
def wfM : JMap → Bool
  | [] => true
  | (k, _) :: rest => mapBelow k rest && wfM rest

theorem mapBelow_lookup_none {m : JMap} {k : Nat} (h : mapBelow k m = true) :
    mapLookup m k = none := by
  induction m with
  | nil => rfl
  | cons p rest ih =>
    obtain ⟨k', v⟩ := p
    simp only [mapBelow, Bool.and_eq_true, decide_eq_true_eq] at h
    simp only [mapLookup]
    rw [if_neg (by omega)]
    exact ih h.2

theorem mapBelow_lookup_some {m : JMap} {k₀ k : Nat} {v : JVal}
    (hb : mapBelow k₀ m = true) (hl : mapLookup m k = some v) : k₀ < k := by
  induction m with
  | nil => simp [mapLookup] at hl
  | cons p rest ih =>
    obtain ⟨k', w⟩ := p
    simp only [mapBelow, Bool.and_eq_true, decide_eq_true_eq] at hb
    simp only [mapLookup] at hl
    split at hl
    · omega
    · exact ih hb.2 hl

theorem mapBelow_mapInsert {m : JMap} {k₀ k : Nat} {v : JVal}
    (hb : mapBelow k₀ m = true) (hk : k₀ < k) : mapBelow k₀ (mapInsert m k v) = true := by
  induction m with
  | nil => simp [mapInsert, mapBelow, hk]
  | cons p rest ih =>
    obtain ⟨k', w⟩ := p
    simp only [mapBelow, Bool.and_eq_true, decide_eq_true_eq] at hb
    simp only [mapInsert]
    split
    · simp only [mapBelow, Bool.and_eq_true, decide_eq_true_eq]
      exact ⟨hk, by simp [mapBelow, hb.1, hb.2]⟩
    · split
      · simp only [mapBelow, Bool.and_eq_true, decide_eq_true_eq]
        exact ⟨hk, hb.2⟩
      · simp only [mapBelow, Bool.and_eq_true, decide_eq_true_eq]
        exact ⟨hb.1, ih hb.2⟩

theorem mapBelow_mapErase {m : JMap} {k₀ k : Nat} (hb : mapBelow k₀ m = true) :
    mapBelow k₀ (mapErase m k) = true := by
  induction m with
  | nil => rfl
  | cons p rest ih =>
    obtain ⟨k', w⟩ := p
    simp only [mapBelow, Bool.and_eq_true, decide_eq_true_eq] at hb
    simp only [mapErase]
    split
    · exact hb.2
    · simp only [mapBelow, Bool.and_eq_true, decide_eq_true_eq]
      exact ⟨hb.1, ih hb.2⟩

theorem mapLookup_mapInsert_self (m : JMap) (k : Nat) (v : JVal) :
    mapLookup (mapInsert m k v) k = some v := by
  induction m with
  | nil => simp [mapInsert, mapLookup]
  | cons p rest ih =>
    obtain ⟨k', w⟩ := p
    simp only [mapInsert]
    split
    · simp [mapLookup]
    · split
      · simp [mapLookup]
      · rename_i h1 h2
        simp only [mapLookup]
        rw [if_neg (fun he => h2 he.symm)]
        exact ih

theorem mapLookup_mapInsert_ne (m : JMap) {k k' : Nat} (v : JVal) (h : k' ≠ k) :
    mapLookup (mapInsert m k v) k' = mapLookup m k' := by
  induction m with
  | nil =>
    simp only [mapInsert, mapLookup]
    rw [if_neg (fun he => h he.symm)]
  | cons p rest ih =>
    obtain ⟨k₂, w⟩ := p
    simp only [mapInsert]
    split
    · simp only [mapLookup]
      rw [if_neg (fun he => h he.symm)]
    · split
      · rename_i h1 h2
        subst h2
        simp only [mapLookup]
        rw [if_neg (fun he => h he.symm), if_neg (fun he => h he.symm)]
      · simp only [mapLookup]
        split
        · rfl
        · exact ih

theorem mapLookup_mapErase_ne (m : JMap) {k k' : Nat} (h : k' ≠ k) :
    mapLookup (mapErase m k) k' = mapLookup m k' := by
  induction m with
  | nil => rfl
  | cons p rest ih =>
    obtain ⟨k₂, w⟩ := p
    simp only [mapErase]
    split
    · rename_i he
      subst he
      simp only [mapLookup]
      rw [if_neg (fun he2 => h he2.symm)]
    · simp only [mapLookup]
      split
      · rfl
      · exact ih

theorem mapLookup_mapErase_self {m : JMap} (k : Nat) (hwf : wfM m = true) :
    mapLookup (mapErase m k) k = none := by
  induction m with
  | nil => rfl
  | cons p rest ih =>
    obtain ⟨k₂, w⟩ := p
    simp only [wfM, Bool.and_eq_true] at hwf
    simp only [mapErase]
    split
    · rename_i he
      subst he
      exact mapBelow_lookup_none hwf.1
    · simp only [mapLookup]
      rename_i hne
      rw [if_neg hne]
      exact ih hwf.2

theorem mapErase_of_lookup_none {m : JMap} {k : Nat} (h : mapLookup m k = none) :
    mapErase m k = m := by
  induction m with
  | nil => rfl
  | cons p rest ih =>
    obtain ⟨k₂, w⟩ := p
    simp only [mapLookup] at h
    split at h
    · exact absurd h (by simp)
    · simp only [mapErase]
      rename_i hne
      rw [if_neg hne, ih h]

theorem mapInsert_self_of_lookup {m : JMap} {k : Nat} {v : JVal} (hwf : wfM m = true)
    (hl : mapLookup m k = some v) : mapInsert m k v = m := by
  induction m with
  | nil => simp [mapLookup] at hl
  | cons p rest ih =>
    obtain ⟨k₂, w⟩ := p
    simp only [wfM, Bool.and_eq_true] at hwf
    simp only [mapLookup] at hl
    simp only [mapInsert]
    by_cases he : k₂ = k
    · subst he
      rw [if_pos rfl] at hl
      cases hl
      rw [if_neg (by omega), if_pos rfl]
    · rw [if_neg he] at hl
      have hlt : k₂ < k := mapBelow_lookup_some hwf.1 hl
      rw [if_neg (by omega), if_neg (by omega), ih hwf.2 hl]

theorem mapErase_mapInsert_fresh {m : JMap} {k : Nat} {v : JVal}
    (h : mapLookup m k = none) : mapErase (mapInsert m k v) k = m := by
  induction m with
  | nil => simp [mapInsert, mapErase]
  | cons p rest ih =>
    obtain ⟨k₂, w⟩ := p
    simp only [mapLookup] at h
    split at h
    · exact absurd h (by simp)
    · rename_i hne
      simp only [mapInsert]
      split
      · simp [mapErase]
      · split
        · rename_i he; exact absurd he.symm hne
        · simp only [mapErase]
          rw [if_neg hne, ih h]

theorem mapInsert_front {m : JMap} {k : Nat} {v : JVal} (hb : mapBelow k m = true) :
    mapInsert m k v = (k, v) :: m := by
  cases m with
  | nil => rfl
  | cons p rest =>
    obtain ⟨k₂, w⟩ := p
    simp only [mapBelow, Bool.and_eq_true, decide_eq_true_eq] at hb
    simp only [mapInsert]
    rw [if_pos hb.1]

theorem mapInsert_mapErase_self {m : JMap} {k : Nat} {v : JVal} (hwf : wfM m = true)
    (hl : mapLookup m k = some v) : mapInsert (mapErase m k) k v = m := by
  induction m with
  | nil => simp [mapLookup] at hl
  | cons p rest ih =>
    obtain ⟨k₂, w⟩ := p
    simp only [wfM, Bool.and_eq_true] at hwf
    simp only [mapLookup] at hl
    simp only [mapErase]
    by_cases he : k₂ = k
    · subst he
      rw [if_pos rfl] at hl
      cases hl
      rw [if_pos rfl]
      exact mapInsert_front hwf.1
    · rw [if_neg he] at hl
      rw [if_neg he]
      have hlt : k₂ < k := mapBelow_lookup_some hwf.1 hl
      simp only [mapInsert]
      rw [if_neg (by omega), if_neg (by omega), ih hwf.2 hl]

theorem mapInsert_mapInsert_absorb (m : JMap) (k : Nat) (v w : JVal) :
    mapInsert (mapInsert m k v) k w = mapInsert m k w := by
  induction m with
  | nil => simp [mapInsert]
  | cons p rest ih =>
    obtain ⟨k₂, u⟩ := p
    by_cases h1 : k < k₂
    · simp [mapInsert, h1]
    · by_cases h2 : k = k₂
      · subst h2
        simp [mapInsert, h1]
      · simp only [mapInsert, if_neg h1, if_neg h2]
        rw [ih]

theorem mapBelow_trans {m : JMap} {k₀ k₁ : Nat} (hlt : k₀ < k₁)
    (hb : mapBelow k₁ m = true) : mapBelow k₀ m = true := by
  induction m with
  | nil => rfl
  | cons p rest ih =>
    obtain ⟨k', w⟩ := p
    simp only [mapBelow, Bool.and_eq_true, decide_eq_true_eq] at hb ⊢
    exact ⟨by omega, ih hb.2⟩

theorem wfM_mapInsert {m : JMap} {k : Nat} {v : JVal} (hwf : wfM m = true) :
    wfM (mapInsert m k v) = true := by
  induction m with
  | nil => simp [mapInsert, wfM, mapBelow]
  | cons p rest ih =>
    obtain ⟨k₂, w⟩ := p
    simp only [wfM, Bool.and_eq_true] at hwf
    simp only [mapInsert]
    split
    · rename_i hlt
      simp only [wfM, mapBelow, Bool.and_eq_true, decide_eq_true_eq]
      refine ⟨⟨hlt, ?_⟩, hwf.1, hwf.2⟩
      exact mapBelow_trans hlt hwf.1
    · split
      · rename_i h1 h2
        subst h2
        simp only [wfM, Bool.and_eq_true]
        exact ⟨hwf.1, hwf.2⟩
      · rename_i h1 h2
        have hlt : k₂ < k := by omega
        simp only [wfM, Bool.and_eq_true]
        exact ⟨mapBelow_mapInsert hwf.1 hlt, ih hwf.2⟩

theorem wfM_mapErase {m : JMap} {k : Nat} (hwf : wfM m = true) :
    wfM (mapErase m k) = true := by
  induction m with
  | nil => rfl
  | cons p rest ih =>
    obtain ⟨k₂, w⟩ := p
    simp only [wfM, Bool.and_eq_true] at hwf
    simp only [mapErase]
    split
    · exact hwf.2
    · simp only [wfM, Bool.and_eq_true]
      exact ⟨mapBelow_mapErase hwf.1, ih hwf.2⟩

theorem extM {m₁ m₂ : JMap} (h₁ : wfM m₁ = true) (h₂ : wfM m₂ = true)
    (h : ∀ k, mapLookup m₁ k = mapLookup m₂ k) : m₁ = m₂ := by
  induction m₁ generalizing m₂ with
  | nil =>
    cases m₂ with
    | nil => rfl
    | cons p rest =>
      obtain ⟨k, v⟩ := p
      have := h k
      simp [mapLookup] at this
  | cons p rest ih =>
    obtain ⟨k1, v1⟩ := p
    cases m₂ with
    | nil =>
      have := h k1
      simp [mapLookup] at this
    | cons q rest₂ =>
      obtain ⟨k2, v2⟩ := q
      simp only [wfM, Bool.and_eq_true] at h₁ h₂
      have hk : k1 = k2 := by
        by_contra hne
        have ha : mapLookup ((k2, v2) :: rest₂) k1 = some v1 := by
          rw [← h k1]; simp [mapLookup]
        have hb : mapLookup ((k1, v1) :: rest) k2 = some v2 := by
          rw [h k2]; simp [mapLookup]
        simp only [mapLookup] at ha hb
        rw [if_neg (fun hh => hne hh.symm)] at ha
        rw [if_neg hne] at hb
        have l1 : k2 < k1 := mapBelow_lookup_some h₂.1 ha
        have l2 : k1 < k2 := mapBelow_lookup_some h₁.1 hb
        omega
      subst hk
      have hv : v1 = v2 := by
        have := h k1
        simp [mapLookup] at this
        exact this
      subst hv
      have : rest = rest₂ := by
        refine ih h₁.2 h₂.2 (fun k => ?_)
        by_cases he : k = k1
        · subst he
          rw [mapBelow_lookup_none h₁.1, mapBelow_lookup_none h₂.1]
        · have := h k
          simp only [mapLookup] at this
          rw [if_neg (fun hh => he hh.symm), if_neg (fun hh => he hh.symm)] at this
          exact this
      rw [this]

/-! ## The history engine (from `history.ts`) -/

/-- `IHistoryData`: caller-supplied metadata.  The source `type` field is a
union of the literals `init`, `add`, `del`, `mov`, `upd`. -/
structure HData where
  type : String
  entity_number : Int
  other_entity : Option Int
deriving DecidableEq

/-- The mutable world the engine acts on: one object target and one map
target (mutation calls address one of them). -/
structure Doc where
  obj : JFields
  map : JMap
deriving DecidableEq

/-- Well-formedness of the world: both targets canonically sorted. -/
def DocWF (d : Doc) : Bool := wfF d.obj && wfM d.map

/-- `HistoryValue`: which slot an action application uses. -/
inductive HistoryValue where
  | New : HistoryValue
  | Old : HistoryValue
deriving DecidableEq

/-- The target location captured by a mutation's apply closure: an object
path (`updateValue`) or a map key (`updateMap`). -/
inductive Loc where
  | objPath : List String → Loc
  | mapKey : Nat → Loc
deriving DecidableEq

/-- `HistoryAction<V>`: old and new slots, optional metadata, the captured
apply closure (represented by its captured location), and the emit
callbacks (opaque identifiers appended by `emit`). -/
structure HistoryAction where
  m_OldValue : Slot
  m_NewValue : Slot
  m_Data : Option HData
  loc : Loc
  m_Emits : List Nat
deriving DecidableEq

/-- `emit(f)`: register a callback to run after every future apply. -/
def HistoryAction.emit (a : HistoryAction) (f : Nat) : HistoryAction :=
  { a with m_Emits := a.m_Emits ++ [f] }

/-- The removal branch of the `updateValue` closure: read the current slot
at the path and delete the property only if it exists. -/
def delClosureF (f : JFields) (p : List String) : Option JFields :=
  match s_GetValue f p with
  | some cur => if cur.exs then s_DeleteValue f p else some f
  | none => none

/-- The apply closure built by `updateValue` / `updateMap`: if the slot's
`exists` flag is cleared, check presence and delete; otherwise write the
slot's value at the captured location. -/
def applyClosure (l : Loc) (v : Slot) (d : Doc) : Option Doc :=
  match l with
  | .objPath path =>
    if v.exs = false then
      match delClosureF d.obj path with
      | some f => some { d with obj := f }
      | none => none
    else
      match s_SetValue d.obj path v with
      | some f => some { d with obj := f }
      | none => none
  | .mapKey k =>
    if v.exs = false then
      if (mapLookup d.map k).isSome then some { d with map := mapErase d.map k }
      else some d
    else some { d with map := mapInsert d.map k v.value }

/-- Result of running an action or an entry: either a normal return or a
thrown exception; both carry the document state reached and the trace of
emit callbacks that ran, and a normal action return carries the
`entity_number` the source returns. -/
inductive ApplyResult where
  | ok : Doc → List Nat → Int → ApplyResult
  | fault : Doc → List Nat → ApplyResult
deriving DecidableEq

/-- The slot an application uses: the new value for `New`, the old value
for `Old`. -/
def slotFor (a : HistoryAction) (value : HistoryValue) : Slot :=
  match value with
  | .New => a.m_NewValue
  | .Old => a.m_OldValue

/-- `HistoryAction.apply`: run the closure with the chosen slot, then the
emit callbacks in registration order, then return
`this.m_Data.entity_number` — which throws when no metadata was supplied
(reading a property of `undefined`). -/
def HistoryAction.apply (a : HistoryAction) (value : HistoryValue) (d : Doc) : ApplyResult :=
  match applyClosure a.loc (slotFor a value) d with
  | none => .fault d []
  | some d2 =>
    match a.m_Data with
    | some dat => .ok d2 a.m_Emits dat.entity_number
    | none => .fault d2 a.m_Emits

/-- The document state recorded in an action's result (post-mutation state,
also on a throw after the mutation). -/
def resDoc : ApplyResult → Doc
  | .ok d _ _ => d
  | .fault d _ => d

/-- The emit-callback trace recorded in an action's result. -/
def resTrace : ApplyResult → List Nat
  | .ok _ tr _ => tr
  | .fault _ tr => tr

/-- `HistoryEntry`: a description and the pushed actions. -/
structure HistoryEntry where
  m_Text : Option String
  m_Actions : List HistoryAction
deriving DecidableEq

/-- Result of running all actions of an entry. -/
inductive EntryResult where
  | ok : Doc → List Nat → EntryResult
  | fault : Doc → List Nat → EntryResult
deriving DecidableEq

/-- The loop of `HistoryEntry.apply`: run every action with the chosen
direction in push order, accumulating the emit traces; a thrown exception
aborts the remaining actions. -/
def runActions : List HistoryAction → HistoryValue → Doc → List Nat → EntryResult
  | [], _, d, tr => .ok d tr
  | a :: rest, v, d, tr =>
    match a.apply v d with
    | .ok d2 em _ => runActions rest v d2 (tr ++ em)
    | .fault d2 em => .fault d2 (tr ++ em)

/-- The loop of `HistoryEntry.undo` (the source has its own loop calling
`action.apply(HistoryValue.Old)` on each action, front to back). -/
def runUndoLoop : List HistoryAction → Doc → List Nat → EntryResult
  | [], d, tr => .ok d tr
  | a :: rest, d, tr =>
    match a.apply .Old d with
    | .ok d2 em _ => runUndoLoop rest d2 (tr ++ em)
    | .fault d2 em => .fault d2 (tr ++ em)

/-- The loop of `HistoryEntry.redo` (again its own loop in the source,
calling `action.apply(HistoryValue.New)` front to back). -/
def runRedoLoop : List HistoryAction → Doc → List Nat → EntryResult
  | [], d, tr => .ok d tr
  | a :: rest, d, tr =>
    match a.apply .New d with
    | .ok d2 em _ => runRedoLoop rest d2 (tr ++ em)
    | .fault d2 em => .fault d2 (tr ++ em)

/-- `HistoryEntry.apply`: apply all actions in push order. -/
def HistoryEntry.apply (e : HistoryEntry) (v : HistoryValue) (d : Doc) : EntryResult :=
  runActions e.m_Actions v d []

/-- `HistoryEntry.undo`: run the undo loop over the pushed actions. -/
def HistoryEntry.undo (e : HistoryEntry) (d : Doc) : EntryResult :=
  runUndoLoop e.m_Actions d []

/-- `HistoryEntry.redo`: run the redo loop over the pushed actions. -/
def HistoryEntry.redo (e : HistoryEntry) (d : Doc) : EntryResult :=
  runRedoLoop e.m_Actions d []

theorem runUndoLoop_eq_runActions : ∀ (l : List HistoryAction) (d : Doc) (tr : List Nat),
    runUndoLoop l d tr = runActions l .Old d tr
  | [], _, _ => rfl
  | a :: rest, d, tr => by
    simp only [runUndoLoop, runActions]
    cases a.apply .Old d with
    | ok d2 em n => exact runUndoLoop_eq_runActions rest d2 (tr ++ em)
    | fault d2 em => rfl

theorem runRedoLoop_eq_runActions : ∀ (l : List HistoryAction) (d : Doc) (tr : List Nat),
    runRedoLoop l d tr = runActions l .New d tr
  | [], _, _ => rfl
  | a :: rest, d, tr => by
    simp only [runRedoLoop, runActions]
    cases a.apply .New d with
    | ok d2 em n => exact runRedoLoop_eq_runActions rest d2 (tr ++ em)
    | fault d2 em => rfl

/-- `HistoryEntry.push`: append an action. -/
def HistoryEntry.push (e : HistoryEntry) (a : HistoryAction) : HistoryEntry :=
  { e with m_Actions := e.m_Actions ++ [a] }

/-- `HistoryEntry.data`: the metadata of the most recently pushed action
(`undefined` both for an empty entry and for an action without metadata). -/
def HistoryEntry.data (e : HistoryEntry) : Option HData :=
  e.m_Actions.getLast?.bind (fun a => a.m_Data)

/-- The module-scoped state: the world, `s_HistoryEntries`, `s_HistoryIndex`
and the optional open `s_Transaction`. -/
structure HistState where
  doc : Doc
  s_HistoryEntries : List HistoryEntry
  s_HistoryIndex : Nat
  s_Transaction : Option HistoryEntry
deriving DecidableEq

/-- Result of an API call that can throw: the state carried by `fault` is
the state at the moment of the throw. -/
inductive HResult where
  | ok : HistState → HResult
  | fault : HistState → HResult
deriving DecidableEq

/-- `canUndo()`: `s_HistoryIndex > 0`. -/
def canUndo (s : HistState) : Bool := decide (0 < s.s_HistoryIndex)

/-- `canRedo()`: `s_HistoryIndex < s_HistoryEntries.length`. -/
def canRedo (s : HistState) : Bool := decide (s.s_HistoryIndex < s.s_HistoryEntries.length)

/-- `getUndoPreview()`: `s_HistoryEntries[s_HistoryIndex - 1].data`.  When
the index is `0` the JavaScript expression indexes at `-1`, reads
`undefined`, and the `.data` access throws — modelled as `none`. -/
def getUndoPreview (s : HistState) : Option (Option HData) :=
  if s.s_HistoryIndex = 0 then none
  else (s.s_HistoryEntries.get? (s.s_HistoryIndex - 1)).map HistoryEntry.data

/-- `getRedoPreview()`: `s_HistoryEntries[s_HistoryIndex].data`, throwing
(`none`) when the index is out of range. -/
def getRedoPreview (s : HistState) : Option (Option HData) :=
  (s.s_HistoryEntries.get? s.s_HistoryIndex).map HistoryEntry.data

/-- `undo()`: run `undo` on the entry below the cursor, then decrement the
cursor.  With the cursor at `0` the JavaScript code reads
`s_HistoryEntries[-1]` (`undefined`) and the method call throws before the
cursor changes. -/
def undo (s : HistState) : HResult :=
  if s.s_HistoryIndex = 0 then .fault s
  else
    match s.s_HistoryEntries.get? (s.s_HistoryIndex - 1) with
    | none => .fault s
    | some e =>
      match e.undo s.doc with
      | .ok d _ => .ok { s with doc := d, s_HistoryIndex := s.s_HistoryIndex - 1 }
      | .fault d _ => .fault { s with doc := d }

/-- `redo()`: run `redo` on the entry at the cursor, then increment the
cursor; out of range the JavaScript method call throws first. -/
def redo (s : HistState) : HResult :=
  match s.s_HistoryEntries.get? s.s_HistoryIndex with
  | none => .fault s
  | some e =>
    match e.redo s.doc with
    | .ok d _ => .ok { s with doc := d, s_HistoryIndex := s.s_HistoryIndex + 1 }
    | .fault d _ => .fault { s with doc := d }

/-- The `while (s_HistoryEntries.length > s_HistoryIndex) pop` loop of
`s_CommitTransaction`. -/
def popLoop (entries : List HistoryEntry) (idx : Nat) : List HistoryEntry :=
  if entries.length > idx then popLoop entries.dropLast idx else entries
termination_by entries.length
decreasing_by
  rename_i h
  simp only [List.length_dropLast]
  omega

/-- The pop loop retains exactly the first `idx` entries (everything when
`idx` exceeds the length, since then the loop never runs). -/
theorem popLoop_eq_take (entries : List HistoryEntry) (idx : Nat) :
    popLoop entries idx = entries.take idx := by
  rw [popLoop]
  split
  · rename_i h
    rw [popLoop_eq_take entries.dropLast idx]
    rw [List.dropLast_eq_take]
    rw [List.take_take]
    congr 1
    omega
  · rename_i h
    rw [List.take_of_length_le (by omega)]
termination_by entries.length
decreasing_by
  simp only [List.length_dropLast]
  omega

/-- `s_CommitTransaction`: pop every entry at or above the cursor, append
the committed entry, increment the cursor. -/
def s_CommitTransaction (s : HistState) (transaction : HistoryEntry) : HistState :=
  { s with
    s_HistoryEntries := popLoop s.s_HistoryEntries s.s_HistoryIndex ++ [transaction],
    s_HistoryIndex := s.s_HistoryIndex + 1 }

/-- `startTransaction(text?)`: fail (returning `false`, no state change)
when a transaction is open, otherwise open a fresh entry. -/
def startTransaction (s : HistState) (text : Option String) : Bool × HistState :=
  match s.s_Transaction with
  | some _ => (false, s)
  | none => (true, { s with s_Transaction := some ⟨text, []⟩ })

/-- `commitTransaction()`: no-op without an open transaction; otherwise
`log()` the open entry (which reads every action's
`data.entity_number` and therefore throws if some action has no
metadata — before any state changes), commit it, and clear the slot. -/
def commitTransaction (s : HistState) : HResult :=
  match s.s_Transaction with
  | none => .ok s
  | some t =>
    if t.m_Actions.all (fun a => a.m_Data.isSome) then
      .ok (s_CommitTransaction { s with s_Transaction := none } t)
    else .fault s

/-- `updateValue(target, path, value, text?, data?, remove?)`. -/
def updateValue (s : HistState) (path : List String) (value : JVal)
    (text : Option String) (data : Option HData) (remove : Bool) : HResult :=
  match s_GetValue s.doc.obj path with
  | none => .fault s
  | some oldValue =>
    let newValue : Slot := ⟨value, !remove⟩
    let historyAction : HistoryAction := ⟨oldValue, newValue, data, .objPath path, []⟩
    match s.s_Transaction with
    | none =>
      let transaction : HistoryEntry := HistoryEntry.push ⟨text, []⟩ historyAction
      match transaction.apply .New s.doc with
      | .ok d _ => .ok (s_CommitTransaction { s with doc := d } transaction)
      | .fault d _ => .fault { s with doc := d }
    | some t =>
      let t2 := t.push historyAction
      match historyAction.apply .New s.doc with
      | .ok d _ _ => .ok { s with doc := d, s_Transaction := some t2 }
      | .fault d _ => .fault { s with doc := d, s_Transaction := some t2 }

/-- The old slot captured by `updateMap`: the present value, or an absent
`undefined`. -/
def mapOldSlot (m : JMap) (key : Nat) : Slot :=
  match mapLookup m key with
  | some v => ⟨v, true⟩
  | none => ⟨.undef, false⟩

/-- `updateMap(target, key, value, text?, data?, remove?)`. -/
def updateMap (s : HistState) (key : Nat) (value : JVal)
    (text : Option String) (data : Option HData) (remove : Bool) : HResult :=
  let oldValue : Slot := mapOldSlot s.doc.map key
  let newValue : Slot := ⟨value, !remove⟩
  let historyAction : HistoryAction := ⟨oldValue, newValue, data, .mapKey key, []⟩
  match s.s_Transaction with
  | none =>
    let transaction : HistoryEntry := HistoryEntry.push ⟨text, []⟩ historyAction
    match transaction.apply .New s.doc with
    | .ok d _ => .ok (s_CommitTransaction { s with doc := d } transaction)
    | .fault d _ => .fault { s with doc := d }
  | some t =>
    let t2 := t.push historyAction
    match historyAction.apply .New s.doc with
    | .ok d _ _ => .ok { s with doc := d, s_Transaction := some t2 }
    | .fault d _ => .fault { s with doc := d, s_Transaction := some t2 }

/-- The state reached by a call, whether it returned or threw. -/
def stateOf : HResult → HistState
  | .ok s => s
  | .fault s => s

/-! ## Concrete states and entries used in example-driven claims -/

/-- The target of the specification example: `{name: 'A'}`, empty history,
no open transaction. -/
def exState0 : HistState :=
  ⟨⟨.cons "name" (.str "A") .nil, []⟩, [], 0, none⟩

/-- The state actually reached by
`updateValue({name:'A'}, ['name'], 'B', 'rename')` (metadata omitted):
target mutated to `{name:'B'}` but nothing committed. -/
def exStateB : HistState :=
  ⟨⟨.cons "name" (.str "B") .nil, []⟩, [], 0, none⟩

/-- Example metadata. -/
def exData : HData := ⟨"upd", 1, none⟩

/-- A two-action entry whose actions write the same map key with different
old values: forward-order and reverse-order undo differ on it. -/
def exEntry2 : HistoryEntry :=
  ⟨none, [⟨⟨.str "x", true⟩, ⟨.str "n1", true⟩, some exData, .mapKey 1, []⟩,
          ⟨⟨.str "y", true⟩, ⟨.str "n2", true⟩, some exData, .mapKey 1, []⟩]⟩

/-- An empty world for the entry examples. -/
def exDoc0 : Doc := ⟨.nil, []⟩

/-! ## Inversion of a single mutation (used for the undo round-trip) -/

theorem DocWF_obj {d : Doc} (h : DocWF d = true) : wfF d.obj = true := by
  simp only [DocWF, Bool.and_eq_true] at h
  exact h.1

theorem DocWF_map {d : Doc} (h : DocWF d = true) : wfM d.map = true := by
  simp only [DocWF, Bool.and_eq_true] at h
  exact h.2

theorem DocWF_mk {f : JFields} {m : JMap} (hf : wfF f = true) (hm : wfM m = true) :
    DocWF ⟨f, m⟩ = true := by
  simp [DocWF, hf, hm]

/-- Applying the captured old slot right after a successful object-path
mutation restores the document exactly, and the mutated document stays
well-formed. -/
theorem closure_inv_objPath {d d2 : Doc} {path : List String} {old : Slot} {v : JVal}
    {remove : Bool} (hwf : DocWF d = true) (hv : wfV v = true)
    (hg : s_GetValue d.obj path = some old)
    (hc : applyClosure (.objPath path) ⟨v, !remove⟩ d = some d2) :
    applyClosure (.objPath path) old d2 = some d ∧ DocWF d2 = true := by
  obtain ⟨w, oe⟩ := old
  cases remove with
  | false =>
    simp only [Bool.not_false, applyClosure] at hc
    rw [if_neg (by simp)] at hc
    cases hs : s_SetValue d.obj path ⟨v, true⟩ with
    | none => rw [hs] at hc; exact absurd hc (by simp)
    | some f =>
      rw [hs] at hc
      simp only [Option.some.injEq] at hc
      subst hc
      refine ⟨?_, DocWF_mk (wfF_s_SetValue (DocWF_obj hwf) hv hs) (DocWF_map hwf)⟩
      cases oe with
      | true =>
        have hr := setValue_setValue_restore (s := ⟨v, true⟩) (t := ⟨w, true⟩)
          (DocWF_obj hwf) hg hs rfl
        simp [applyClosure, hr]
      | false =>
        have h1 := getValue_after_setValue hs
        have h2 := deleteValue_after_setValue_fresh (DocWF_obj hwf) hg hs
        simp [applyClosure, delClosureF, h1, h2]
  | true =>
    simp only [Bool.not_true, applyClosure, if_true, delClosureF] at hc
    rw [hg] at hc
    cases oe with
    | true =>
      simp only [if_true] at hc
      cases hdel : s_DeleteValue d.obj path with
      | none => rw [hdel] at hc; exact absurd hc (by simp)
      | some f =>
        rw [hdel] at hc
        simp only [Option.some.injEq] at hc
        subst hc
        refine ⟨?_, DocWF_mk (wfF_s_DeleteValue (DocWF_obj hwf) hdel) (DocWF_map hwf)⟩
        have hr := setValue_after_deleteValue (t := ⟨w, true⟩) (DocWF_obj hwf) hg hdel rfl
        simp [applyClosure, hr]
    | false =>
      simp only [Bool.false_eq_true, if_false, Option.some.injEq] at hc
      subst hc
      refine ⟨?_, hwf⟩
      simp [applyClosure, delClosureF, hg]

/-- Applying the captured old slot right after a successful map mutation
restores the document exactly, and the mutated document stays
well-formed. -/
theorem closure_inv_mapKey {d d2 : Doc} {key : Nat} {v : JVal} {remove : Bool}
    (hwf : DocWF d = true)
    (hc : applyClosure (.mapKey key) ⟨v, !remove⟩ d = some d2) :
    applyClosure (.mapKey key) (mapOldSlot d.map key) d2 = some d ∧ DocWF d2 = true := by
  rw [mapOldSlot]
  cases remove with
  | false =>
    simp only [Bool.not_false, applyClosure] at hc
    rw [if_neg (by simp)] at hc
    simp only [Option.some.injEq] at hc
    subst hc
    refine ⟨?_, DocWF_mk (DocWF_obj hwf) (wfM_mapInsert (DocWF_map hwf))⟩
    cases hl : mapLookup d.map key with
    | some w =>
      simp only [applyClosure]
      rw [if_neg (by simp)]
      rw [mapInsert_mapInsert_absorb, mapInsert_self_of_lookup (DocWF_map hwf) hl]
    | none =>
      simp [applyClosure, mapLookup_mapInsert_self, mapErase_mapInsert_fresh hl]
  | true =>
    simp only [Bool.not_true, applyClosure, if_true] at hc
    cases hl : mapLookup d.map key with
    | some w =>
      rw [hl] at hc
      simp only [Option.isSome_some, if_true, Option.some.injEq] at hc
      subst hc
      refine ⟨?_, DocWF_mk (DocWF_obj hwf) (wfM_mapErase (DocWF_map hwf))⟩
      have hr := mapInsert_mapErase_self (DocWF_map hwf) hl
      simp [applyClosure, hr]
    | none =>
      rw [hl] at hc
      simp only [Option.isSome_none, Bool.false_eq_true, if_false, Option.some.injEq] at hc
      subst hc
      refine ⟨?_, hwf⟩
      simp [applyClosure, hl]

/-! ## Sequences of auto-committed mutation calls (for the round-trip
claim) -/

/-- A single mutation request through one of the two entry points. -/
inductive Call where
  | value : List String → JVal → Option String → Option HData → Bool → Call
  | map : Nat → JVal → Option String → Option HData → Bool → Call
deriving DecidableEq

/-- The value written by an object-path call must itself be a well-formed
JavaScript value (map values are stored wholesale and never traversed). -/
def CallWF : Call → Bool
  | .value _ v _ _ _ => wfV v
  | .map _ _ _ _ _ => true

/-- Perform one call. -/
def doCall (s : HistState) : Call → HResult
  | .value path v text data remove => updateValue s path v text data remove
  | .map key v text data remove => updateMap s key v text data remove

/-- Perform a sequence of calls, stopping at the first throw. -/
def doCalls : HistState → List Call → Option HistState
  | s, [] => some s
  | s, c :: rest =>
    match doCall s c with
    | .ok s2 => doCalls s2 rest
    | .fault _ => none

/-- Perform `n` `undo()` calls, stopping at the first throw. -/
def undoN : Nat → HistState → Option HistState
  | 0, s => some s
  | n + 1, s =>
    match undo s with
    | .ok s2 => undoN n s2
    | .fault _ => none

/-- The part of the state `undo` can observe: the document, the cursor, and
the entries below the cursor. -/
def undoView (s : HistState) : Doc × Nat × List HistoryEntry :=
  (s.doc, s.s_HistoryIndex, s.s_HistoryEntries.take s.s_HistoryIndex)

theorem doCalls_append : ∀ (l₁ l₂ : List Call) (s : HistState),
    doCalls s (l₁ ++ l₂) = (doCalls s l₁).bind (fun m => doCalls m l₂)
  | [], l₂, s => rfl
  | c :: rest, l₂, s => by
    simp only [List.cons_append, doCalls]
    cases doCall s c with
    | ok s2 => exact doCalls_append rest l₂ s2
    | fault _ => rfl

/-- Characterization of a successful auto-committed `updateValue`. -/
theorem updateValue_commit_ok {s : HistState} {path : List String} {v : JVal}
    {text : Option String} {data : Option HData} {remove : Bool} {s' : HistState}
    (htr : s.s_Transaction = none)
    (h : updateValue s path v text data remove = .ok s') :
    ∃ old d2 dat,
      s_GetValue s.doc.obj path = some old ∧
      applyClosure (.objPath path) ⟨v, !remove⟩ s.doc = some d2 ∧
      data = some dat ∧
      s' = s_CommitTransaction { s with doc := d2 }
        ⟨text, [⟨old, ⟨v, !remove⟩, data, .objPath path, []⟩]⟩ := by
  cases hg : s_GetValue s.doc.obj path with
  | none =>
    rw [updateValue, hg] at h
    exact absurd h (by simp)
  | some old =>
    rw [updateValue, hg, htr] at h
    simp only [HistoryEntry.push, HistoryEntry.apply, List.nil_append, runActions] at h
    cases hcl : applyClosure (.objPath path) ⟨v, !remove⟩ s.doc with
    | none =>
      rw [show HistoryAction.apply ⟨old, ⟨v, !remove⟩, data, .objPath path, []⟩ .New s.doc =
          .fault s.doc [] from by
        simp only [HistoryAction.apply, slotFor, hcl]] at h
      exact absurd h (by simp)
    | some d2 =>
      cases hd : data with
      | none =>
        rw [show HistoryAction.apply ⟨old, ⟨v, !remove⟩, data, .objPath path, []⟩ .New s.doc =
            .fault d2 [] from by
          simp only [HistoryAction.apply, slotFor, hcl, hd]] at h
        exact absurd h (by simp)
      | some dat =>
        rw [show HistoryAction.apply ⟨old, ⟨v, !remove⟩, data, .objPath path, []⟩ .New s.doc =
            .ok d2 [] dat.entity_number from by
          simp only [HistoryAction.apply, slotFor, hcl, hd]] at h
        simp only [runActions, HResult.ok.injEq] at h
        refine ⟨old, d2, dat, rfl, rfl, rfl, ?_⟩
        rw [htr]
        rw [hd] at h
        exact h.symm

/-- Characterization of a successful auto-committed `updateMap`. -/
theorem updateMap_commit_ok {s : HistState} {key : Nat} {v : JVal}
    {text : Option String} {data : Option HData} {remove : Bool} {s' : HistState}
    (htr : s.s_Transaction = none)
    (h : updateMap s key v text data remove = .ok s') :
    ∃ d2 dat,
      applyClosure (.mapKey key) ⟨v, !remove⟩ s.doc = some d2 ∧
      data = some dat ∧
      s' = s_CommitTransaction { s with doc := d2 }
        ⟨text, [⟨mapOldSlot s.doc.map key, ⟨v, !remove⟩, data, .mapKey key, []⟩]⟩ := by
  rw [updateMap, htr] at h
  simp only [HistoryEntry.push, HistoryEntry.apply, List.nil_append, runActions] at h
  cases hcl : applyClosure (.mapKey key) ⟨v, !remove⟩ s.doc with
  | none =>
    rw [show HistoryAction.apply ⟨mapOldSlot s.doc.map key, ⟨v, !remove⟩, data, .mapKey key, []⟩
        .New s.doc = .fault s.doc [] from by
      simp only [HistoryAction.apply, slotFor, hcl]] at h
    exact absurd h (by simp)
  | some d2 =>
    cases hd : data with
    | none =>
      rw [show HistoryAction.apply ⟨mapOldSlot s.doc.map key, ⟨v, !remove⟩, data, .mapKey key, []⟩
          .New s.doc = .fault d2 [] from by
        simp only [HistoryAction.apply, slotFor, hcl, hd]] at h
      exact absurd h (by simp)
    | some dat =>
      rw [show HistoryAction.apply ⟨mapOldSlot s.doc.map key, ⟨v, !remove⟩, data, .mapKey key, []⟩
          .New s.doc = .ok d2 [] dat.entity_number from by
        simp only [HistoryAction.apply, slotFor, hcl, hd]] at h
      simp only [runActions, HResult.ok.injEq] at h
      refine ⟨d2, dat, rfl, rfl, ?_⟩
      rw [htr]
      rw [hd] at h
      exact h.symm

/-- Undoing a committed single-action entry whose metadata is present and
whose old-slot application succeeds. -/
theorem entry_undo_single {a : HistoryAction} {text : Option String} {d dout : Doc}
    {dat : HData} (hdata : a.m_Data = some dat)
    (hinv : applyClosure a.loc a.m_OldValue d = some dout) :
    HistoryEntry.undo ⟨text, [a]⟩ d = .ok dout a.m_Emits := by
  simp only [HistoryEntry.undo, runUndoLoop, HistoryAction.apply, slotFor, hinv, hdata]
  simp [runUndoLoop]

/-- Anatomy of a successful auto-committed call: it truncates the entries
above the cursor, commits one fresh single-action entry, bumps the cursor,
keeps the transaction slot empty, preserves document well-formedness, and
the committed entry's `undo` maps the new document straight back to the
old one. -/
theorem doCall_ok_anatomy {s : HistState} {c : Call} {s' : HistState}
    (hwfd : DocWF s.doc = true) (hidx : s.s_HistoryIndex ≤ s.s_HistoryEntries.length)
    (htr : s.s_Transaction = none) (hcw : CallWF c = true)
    (h : doCall s c = .ok s') :
    ∃ e : HistoryEntry,
      s'.s_HistoryEntries = s.s_HistoryEntries.take s.s_HistoryIndex ++ [e] ∧
      s'.s_HistoryIndex = s.s_HistoryIndex + 1 ∧
      s'.s_Transaction = none ∧
      DocWF s'.doc = true ∧
      s'.s_HistoryIndex ≤ s'.s_HistoryEntries.length ∧
      e.undo s'.doc = .ok s.doc [] := by
  have hlen : (s.s_HistoryEntries.take s.s_HistoryIndex).length = s.s_HistoryIndex := by
    rw [List.length_take]
    omega
  cases c with
  | value path v text data remove =>
    obtain ⟨old, d2, dat, hg, hcl, hd, hs'⟩ := updateValue_commit_ok htr h
    obtain ⟨hinv, hwf2⟩ := closure_inv_objPath hwfd (by simpa [CallWF] using hcw) hg hcl
    subst hs'
    refine ⟨⟨text, [⟨old, ⟨v, !remove⟩, data, .objPath path, []⟩]⟩, ?_, rfl, htr, hwf2, ?_, ?_⟩
    · simp [s_CommitTransaction, popLoop_eq_take]
    · simp only [s_CommitTransaction, popLoop_eq_take, List.length_append, hlen,
        List.length_cons, List.length_nil]
      omega
    · exact entry_undo_single hd hinv
  | map key v text data remove =>
    obtain ⟨d2, dat, hcl, hd, hs'⟩ := updateMap_commit_ok htr h
    obtain ⟨hinv, hwf2⟩ := closure_inv_mapKey hwfd hcl
    subst hs'
    refine ⟨⟨text, [⟨mapOldSlot s.doc.map key, ⟨v, !remove⟩, data, .mapKey key, []⟩]⟩,
      ?_, rfl, htr, hwf2, ?_, ?_⟩
    · simp [s_CommitTransaction, popLoop_eq_take]
    · simp only [s_CommitTransaction, popLoop_eq_take, List.length_append, hlen,
        List.length_cons, List.length_nil]
      omega
    · exact entry_undo_single hd hinv

/-- Performing calls preserves the basic state invariants. -/
theorem doCalls_preserves : ∀ {calls : List Call} {s s' : HistState},
    DocWF s.doc = true → s.s_HistoryIndex ≤ s.s_HistoryEntries.length →
    s.s_Transaction = none → (∀ c ∈ calls, CallWF c = true) →
    doCalls s calls = some s' →
    DocWF s'.doc = true ∧ s'.s_HistoryIndex ≤ s'.s_HistoryEntries.length ∧
      s'.s_Transaction = none
  | [], s, s', hwfd, hidx, htr, _, h => by
    cases h
    exact ⟨hwfd, hidx, htr⟩
  | c :: rest, s, s', hwfd, hidx, htr, hcw, h => by
    simp only [doCalls] at h
    cases hc : doCall s c with
    | fault _ => rw [hc] at h; exact absurd h (by simp)
    | ok s2 =>
      rw [hc] at h
      obtain ⟨e, _, _, htr2, hwf2, hidx2, _⟩ :=
        doCall_ok_anatomy hwfd hidx htr (hcw c (by simp)) hc
      exact doCalls_preserves hwf2 hidx2 htr2 (fun c2 hm => hcw c2 (by simp [hm])) h

/-- `undo` observes only the document, the cursor, and the entries below
the cursor; states agreeing there step to states agreeing there. -/
theorem undo_congr {s₁ s₂ : HistState} (h : undoView s₁ = undoView s₂) :
    (∃ u₁ u₂, undo s₁ = .ok u₁ ∧ undo s₂ = .ok u₂ ∧ undoView u₁ = undoView u₂) ∨
    (∃ u₁ u₂, undo s₁ = .fault u₁ ∧ undo s₂ = .fault u₂) := by
  simp only [undoView, Prod.mk.injEq] at h
  obtain ⟨hdoc, hidx, htake⟩ := h
  by_cases h0 : s₁.s_HistoryIndex = 0
  · right
    refine ⟨s₁, s₂, by simp [undo, h0], by simp [undo, hidx ▸ h0]⟩
  · have hget : s₁.s_HistoryEntries.get? (s₁.s_HistoryIndex - 1) =
        s₂.s_HistoryEntries.get? (s₂.s_HistoryIndex - 1) := by
      have h₁ : s₁.s_HistoryEntries.get? (s₁.s_HistoryIndex - 1) =
          (s₁.s_HistoryEntries.take s₁.s_HistoryIndex).get? (s₁.s_HistoryIndex - 1) := by
        rw [List.get?_eq_getElem?, List.get?_eq_getElem?,
          List.getElem?_take_of_lt (by omega)]
      have h₂ : s₂.s_HistoryEntries.get? (s₂.s_HistoryIndex - 1) =
          (s₂.s_HistoryEntries.take s₂.s_HistoryIndex).get? (s₂.s_HistoryIndex - 1) := by
        rw [List.get?_eq_getElem?, List.get?_eq_getElem?,
          List.getElem?_take_of_lt (by omega)]
      rw [h₁, h₂, htake, hidx]
    rw [undo, undo, if_neg h0, if_neg (hidx ▸ h0), ← hget, ← hidx, ← hdoc]
    cases s₁.s_HistoryEntries.get? (s₁.s_HistoryIndex - 1) with
    | none => right; exact ⟨s₁, s₂, rfl, rfl⟩
    | some e =>
      simp only
      cases e.undo s₁.doc with
      | ok d tr =>
        left
        refine ⟨_, _, rfl, rfl, ?_⟩
        simp only [undoView, Prod.mk.injEq]
        refine ⟨by trivial, by trivial, ?_⟩
        have t₁ : s₁.s_HistoryEntries.take (s₁.s_HistoryIndex - 1) =
            (s₁.s_HistoryEntries.take s₁.s_HistoryIndex).take (s₁.s_HistoryIndex - 1) := by
          rw [List.take_take]
          congr 1
          omega
        rw [t₁, htake, List.take_take]
        congr 1
        omega
      | fault d tr =>
        right
        exact ⟨_, _, rfl, rfl⟩

/-- `undoN` transported along `undoView` agreement. -/
theorem undoN_congr : ∀ (n : Nat) {s₁ s₂ : HistState}, undoView s₁ = undoView s₂ →
    (undoN n s₁ = none ∧ undoN n s₂ = none) ∨
    (∃ t₁ t₂, undoN n s₁ = some t₁ ∧ undoN n s₂ = some t₂ ∧ undoView t₁ = undoView t₂)
  | 0, s₁, s₂, h => Or.inr ⟨s₁, s₂, rfl, rfl, h⟩
  | n + 1, s₁, s₂, h => by
    rcases undo_congr h with ⟨u₁, u₂, h₁, h₂, hv⟩ | ⟨u₁, u₂, h₁, h₂⟩
    · simp only [undoN, h₁, h₂]
      exact undoN_congr n hv
    · simp only [undoN, h₁, h₂]
      exact Or.inl ⟨by trivial, by trivial⟩

/-- C1: for every sequence of auto-committed single-mutation calls made
with no transaction open — each call completing its auto-commit (returning
normally) — performing as many `undo()` calls afterwards succeeds and
leaves the target document exactly equal to its state before the first
mutation call.  Well-formedness hypotheses state that the initial targets
and the written values are genuine JavaScript structures (unique record
keys) and that the cursor is within the history, as the engine always
maintains. -/
theorem C1_roundtrip (calls : List Call) : ∀ (s s' : HistState),
    DocWF s.doc = true → s.s_HistoryIndex ≤ s.s_HistoryEntries.length →
    s.s_Transaction = none → (∀ c ∈ calls, CallWF c = true) →
    doCalls s calls = some s' →
    ∃ s'', undoN calls.length s' = some s'' ∧ s''.doc = s.doc := by
  induction calls using List.reverseRecOn with
  | nil =>
    intro s s' _ _ _ _ h
    cases h
    exact ⟨s, rfl, rfl⟩
  | append_singleton cs c ih =>
    intro s s' hwfd hidx htr hcw h
    rw [doCalls_append] at h
    cases hmid : doCalls s cs with
    | none => rw [hmid] at h; exact absurd h (by simp)
    | some m =>
      rw [hmid] at h
      simp only [Option.some_bind] at h
      have hc : doCall m c = .ok s' := by
        simp only [doCalls] at h
        cases hdc : doCall m c with
        | ok s2 => rw [hdc] at h; simp only [doCalls] at h; cases h; rfl
        | fault _ => rw [hdc] at h; exact absurd h (by simp)
      obtain ⟨hwfm, hidxm, htrm⟩ := doCalls_preserves hwfd hidx htr
        (fun c2 hm => hcw c2 (by simp [hm])) hmid
      obtain ⟨e, hent, hidx', htr', hwf', hlen', hundo⟩ :=
        doCall_ok_anatomy hwfm hidxm htrm (hcw c (by simp)) hc
      have htklen : (m.s_HistoryEntries.take m.s_HistoryIndex).length = m.s_HistoryIndex := by
        rw [List.length_take]
        omega
      have hget : s'.s_HistoryEntries.get? (s'.s_HistoryIndex - 1) = some e := by
        rw [hent, hidx', List.get?_eq_getElem?]
        simp only [Nat.add_sub_cancel]
        have hcl := List.getElem?_concat_length (m.s_HistoryEntries.take m.s_HistoryIndex) e
        rw [htklen] at hcl
        exact hcl
      have hu : undo s' =
          .ok { s' with doc := m.doc, s_HistoryIndex := s'.s_HistoryIndex - 1 } := by
        rw [undo, if_neg (by omega : ¬ s'.s_HistoryIndex = 0), hget]
        simp only
        rw [hundo]
      have hview :
          undoView { s' with doc := m.doc, s_HistoryIndex := s'.s_HistoryIndex - 1 } =
            undoView m := by
        simp only [undoView, Prod.mk.injEq]
        have h1 : s'.s_HistoryIndex - 1 = m.s_HistoryIndex := by omega
        refine ⟨by trivial, h1, ?_⟩
        rw [h1, hent, List.take_left' htklen]
      obtain ⟨sf, hsf, hdocf⟩ := ih s m hwfd hidx htr
        (fun c2 hm => hcw c2 (by simp [hm])) hmid
      rcases undoN_congr cs.length hview with ⟨h1, h2⟩ | ⟨t₁, t₂, h1, h2, hv⟩
      · rw [hsf] at h2
        exact absurd h2 (by simp)
      · rw [hsf] at h2
        have ht2 : t₂ = sf := by cases h2; rfl
        refine ⟨t₁, ?_, ?_⟩
        · have hlen2 : (cs ++ [c]).length = cs.length + 1 := by simp
          rw [hlen2]
          simp only [undoN, hu]
          exact h1
        · have hd1 : t₁.doc = t₂.doc := congrArg (fun p => p.1) hv
          rw [hd1, ht2, hdocf]

/-! ## Masked agreement of documents

`EqEV m x y` states that the values `x` and `y` agree everywhere except
possibly inside the subtrees addressed by the paths in the mask `m`.  It
is the invariant behind the redo-after-undo idempotence: applying the same
writes to two states that agree outside the written locations yields equal
results. -/

/-- Residual masks after stepping into key `k`. -/
def resid (m : List (List String)) (k : String) : List (List String) :=
  m.filterMap (fun p =>
    match p with
    | [] => none
    | k' :: rest => if k' = k then some rest else none)

mutual
/-- Agreement of values outside the masked paths. -/
inductive EqEV : List (List String) → JVal → JVal → Prop where
  | masked (m : List (List String)) (x y : JVal) : [] ∈ m → EqEV m x y
  | refl_undef (m : List (List String)) : EqEV m .undef .undef
  | refl_str (m : List (List String)) (s : String) : EqEV m (.str s) (.str s)
  | objs (m : List (List String)) (fx fy : JFields) :
      (∀ k, EqEO (resid m k) (lookupF fx k) (lookupF fy k)) →
      EqEV m (.obj fx) (.obj fy)
/-- Agreement of optional property values outside the masked paths. -/
inductive EqEO : List (List String) → Option JVal → Option JVal → Prop where
  | bothNone (m : List (List String)) : EqEO m none none
  | bothSome (m : List (List String)) (x y : JVal) : EqEV m x y →
      EqEO m (some x) (some y)
  | maskedO (m : List (List String)) (a b : Option JVal) : [] ∈ m → EqEO m a b
end

/-- Agreement of field lists outside the masked paths. -/
def EqEF (m : List (List String)) (fx fy : JFields) : Prop :=
  ∀ k, EqEO (resid m k) (lookupF fx k) (lookupF fy k)

/-- The object-path components of a location mask. -/
def objMasks (ml : List Loc) : List (List String) :=
  ml.filterMap (fun l =>
    match l with
    | .objPath p => some p
    | .mapKey _ => none)

/-- The map-key components of a location mask. -/
def mapMasks (ml : List Loc) : List Nat :=
  ml.filterMap (fun l =>
    match l with
    | .mapKey k => some k
    | .objPath _ => none)

/-- Agreement of documents outside the masked locations. -/
def DocEqE (ml : List Loc) (x y : Doc) : Prop :=
  EqEF (objMasks ml) x.obj y.obj ∧
  ∀ k : Nat, k ∉ mapMasks ml → mapLookup x.map k = mapLookup y.map k

/-- The locations written by a list of actions. -/
def locsOf (l : List HistoryAction) : List Loc := l.map (fun a => a.loc)

/-- Slot values carried by an action are genuine JavaScript values. -/
def actionWF (a : HistoryAction) : Bool :=
  wfV a.m_OldValue.value && wfV a.m_NewValue.value

/-- All slot values of an entry are genuine JavaScript values. -/
def EntryWF (e : HistoryEntry) : Bool := e.m_Actions.all actionWF

theorem lookupF_sizeOf : ∀ {f : JFields} {k : String} {v : JVal},
    lookupF f k = some v → sizeOf v < sizeOf f
  | .cons k' v' rest, k, v, h => by
    simp only [lookupF] at h
    split at h
    · cases h
      simp
      omega
    · have := lookupF_sizeOf h
      simp
      omega

theorem resid_mem {m : List (List String)} {k : String} {p : List String} :
    p ∈ resid m k ↔ (k :: p) ∈ m := by
  simp only [resid, List.mem_filterMap]
  constructor
  · rintro ⟨q, hq, he⟩
    cases q with
    | nil => simp at he
    | cons k' rest =>
      simp only at he
      split at he
      · rename_i hk
        cases he
        exact hk ▸ hq
      · simp at he
  · intro h
    exact ⟨k :: p, h, by simp⟩

theorem resid_append (m₁ m₂ : List (List String)) (k : String) :
    resid (m₁ ++ m₂) k = resid m₁ k ++ resid m₂ k :=
  List.filterMap_append m₁ m₂ _

theorem eqev_refl : ∀ (x : JVal) (m : List (List String)), EqEV m x x
  | .undef, m => .refl_undef m
  | .str s, m => .refl_str m s
  | .obj fx, m => .objs m fx fx (fun k =>
      match hl : lookupF fx k with
      | none => .bothNone _
      | some v => .bothSome _ v v (eqev_refl v _))
termination_by x _ => sizeOf x
decreasing_by
  have := lookupF_sizeOf hl
  simp
  omega

theorem eqev_weaken : ∀ (x : JVal) {y : JVal} {m₁ m₂ : List (List String)},
    (∀ p, p ∈ m₁ → p ∈ m₂) → EqEV m₁ x y → EqEV m₂ x y
  | x, y, m₁, m₂, hsub, .masked _ _ _ hm => .masked _ _ _ (hsub [] hm)
  | _, _, m₁, m₂, hsub, .refl_undef _ => .refl_undef _
  | _, _, m₁, m₂, hsub, .refl_str _ s => .refl_str _ s
  | .obj fx, .obj fy, m₁, m₂, hsub, .objs _ _ _ hk => by
    refine .objs _ fx fy (fun k => ?_)
    have hsub' : ∀ p, p ∈ resid m₁ k → p ∈ resid m₂ k := by
      intro p hp
      rw [resid_mem] at hp ⊢
      exact hsub _ hp
    have hko := hk k
    generalize hgx : lookupF fx k = ox at hko ⊢
    generalize hgy : lookupF fy k = oy at hko ⊢
    cases hko with
    | bothNone _ => exact .bothNone _
    | maskedO _ _ _ hm => exact .maskedO _ _ _ (hsub' [] hm)
    | bothSome _ v w hvw => exact .bothSome _ v w (eqev_weaken v hsub' hvw)
termination_by x => sizeOf x
decreasing_by
  have := lookupF_sizeOf hgx
  simp
  omega

theorem eqev_union : ∀ (x : JVal) {y z : JVal} {m₁ m₂ : List (List String)},
    EqEV m₁ x y → EqEV m₂ y z → EqEV (m₁ ++ m₂) x z
  | x, y, z, m₁, m₂, .masked _ _ _ hm, _ => .masked _ _ _ (List.mem_append_left _ hm)
  | _, _, z, m₁, m₂, .refl_undef _, h₂ => by
    cases h₂ with
    | masked _ _ _ hm => exact .masked _ _ _ (List.mem_append_right _ hm)
    | refl_undef _ => exact .refl_undef _
  | _, _, z, m₁, m₂, .refl_str _ s, h₂ => by
    cases h₂ with
    | masked _ _ _ hm => exact .masked _ _ _ (List.mem_append_right _ hm)
    | refl_str _ _ => exact .refl_str _ s
  | .obj fx, .obj fy, z, m₁, m₂, .objs _ _ _ hk₁, h₂ => by
    cases h₂ with
    | masked _ _ _ hm => exact .masked _ _ _ (List.mem_append_right _ hm)
    | objs _ _ fz hk₂ =>
      refine .objs _ fx fz (fun k => ?_)
      rw [resid_append]
      have h1 := hk₁ k
      have h2 := hk₂ k
      generalize hgx : lookupF fx k = ox at h1 ⊢
      generalize hgy : lookupF fy k = oy at h1 h2
      generalize hgz : lookupF fz k = oz at h2 ⊢
      cases h1 with
      | maskedO _ _ _ hm => exact .maskedO _ _ _ (List.mem_append_left _ hm)
      | bothNone _ =>
        cases h2 with
        | maskedO _ _ _ hm => exact .maskedO _ _ _ (List.mem_append_right _ hm)
        | bothNone _ => exact .bothNone _
      | bothSome _ v w hvw =>
        cases h2 with
        | maskedO _ _ _ hm => exact .maskedO _ _ _ (List.mem_append_right _ hm)
        | bothSome _ _ u hwu => exact .bothSome _ v u (eqev_union v hvw hwu)
termination_by x => sizeOf x
decreasing_by
  have := lookupF_sizeOf hgx
  simp
  omega

theorem eqef_weaken {fx fy : JFields} {m₁ m₂ : List (List String)}
    (hsub : ∀ p, p ∈ m₁ → p ∈ m₂) (h : EqEF m₁ fx fy) : EqEF m₂ fx fy := by
  intro k
  have hsub' : ∀ p, p ∈ resid m₁ k → p ∈ resid m₂ k := by
    intro p hp
    rw [resid_mem] at hp ⊢
    exact hsub _ hp
  have hko := h k
  generalize hgx : lookupF fx k = ox at hko ⊢
  generalize hgy : lookupF fy k = oy at hko ⊢
  cases hko with
  | bothNone _ => exact .bothNone _
  | maskedO _ _ _ hm => exact .maskedO _ _ _ (hsub' [] hm)
  | bothSome _ v w hvw => exact .bothSome _ v w (eqev_weaken v hsub' hvw)

theorem eqeo_weaken {m₁ m₂ : List (List String)} {ox oy : Option JVal}
    (hsub : ∀ p, p ∈ m₁ → p ∈ m₂) (h : EqEO m₁ ox oy) : EqEO m₂ ox oy := by
  cases h with
  | bothNone _ => exact .bothNone _
  | maskedO _ _ _ hm => exact .maskedO _ _ _ (hsub [] hm)
  | bothSome _ v w hvw => exact .bothSome _ v w (eqev_weaken v hsub hvw)

theorem eqeo_union {m₁ m₂ : List (List String)} {ox oy oz : Option JVal}
    (h₁ : EqEO m₁ ox oy) (h₂ : EqEO m₂ oy oz) : EqEO (m₁ ++ m₂) ox oz := by
  cases h₁ with
  | maskedO _ _ _ hm => exact .maskedO _ _ _ (List.mem_append_left _ hm)
  | bothNone _ =>
    cases h₂ with
    | maskedO _ _ _ hm => exact .maskedO _ _ _ (List.mem_append_right _ hm)
    | bothNone _ => exact .bothNone _
  | bothSome _ v w hvw =>
    cases h₂ with
    | maskedO _ _ _ hm => exact .maskedO _ _ _ (List.mem_append_right _ hm)
    | bothSome _ _ u hwu => exact .bothSome _ v u (eqev_union v hvw hwu)

theorem eqef_union {fx fy fz : JFields} {m₁ m₂ : List (List String)}
    (h₁ : EqEF m₁ fx fy) (h₂ : EqEF m₂ fy fz) : EqEF (m₁ ++ m₂) fx fz := by
  intro k
  rw [resid_append]
  exact eqeo_union (h₁ k) (h₂ k)

theorem objMasks_append (ml₁ ml₂ : List Loc) :
    objMasks (ml₁ ++ ml₂) = objMasks ml₁ ++ objMasks ml₂ :=
  List.filterMap_append ml₁ ml₂ _

theorem mapMasks_append (ml₁ ml₂ : List Loc) :
    mapMasks (ml₁ ++ ml₂) = mapMasks ml₁ ++ mapMasks ml₂ :=
  List.filterMap_append ml₁ ml₂ _

theorem docEqE_weaken {ml₁ ml₂ : List Loc} {x y : Doc}
    (hsub : ∀ l, l ∈ ml₁ → l ∈ ml₂) (h : DocEqE ml₁ x y) : DocEqE ml₂ x y := by
  refine ⟨eqef_weaken ?_ h.1, fun k hk => h.2 k ?_⟩
  · intro p hp
    simp only [objMasks, List.mem_filterMap] at hp ⊢
    obtain ⟨l, hl, he⟩ := hp
    exact ⟨l, hsub l hl, he⟩
  · intro hm
    apply hk
    simp only [mapMasks, List.mem_filterMap] at hm ⊢
    obtain ⟨l, hl, he⟩ := hm
    exact ⟨l, hsub l hl, he⟩

theorem docEqE_trans_append {ml₁ ml₂ : List Loc} {x y z : Doc}
    (h₁ : DocEqE ml₁ x y) (h₂ : DocEqE ml₂ y z) : DocEqE (ml₁ ++ ml₂) x z := by
  constructor
  · rw [objMasks_append]
    exact eqef_union h₁.1 h₂.1
  · intro k hk
    rw [mapMasks_append] at hk
    simp only [List.mem_append] at hk
    push_neg at hk
    rw [h₁.2 k hk.1, h₂.2 k hk.2]

theorem eqeo_refl (m : List (List String)) (o : Option JVal) : EqEO m o o :=
  match o with
  | none => .bothNone m
  | some v => .bothSome m v v (eqev_refl v m)

theorem eqef_refl (m : List (List String)) (f : JFields) : EqEF m f f :=
  fun k => eqeo_refl (resid m k) (lookupF f k)

theorem docEqE_refl (ml : List Loc) (d : Doc) : DocEqE ml d d :=
  ⟨eqef_refl _ _, fun _ _ => rfl⟩

theorem resid_single_self (k : String) (p : List String) : resid [k :: p] k = [p] := by
  simp [resid]

theorem resid_single_ne {k k' : String} (p : List String) (h : k' ≠ k) :
    resid [k :: p] k' = [] := by
  have hne : ¬ (k = k') := fun hh => h hh.symm
  simp [resid, hne]

theorem nil_mem_resid_single_self (k : String) : [] ∈ resid [[k]] k := by
  rw [resid_mem]
  simp

/-- A successful write through a nested path decomposes into a lookup, a
recursive write, and a rebuild. -/
theorem s_SetValue_cons {f : JFields} {k r : String} {rest : List String} {s : Slot}
    {f' : JFields} (h : s_SetValue f (k :: r :: rest) s = some f') :
    ∃ g g', lookupF f k = some (.obj g) ∧ s_SetValue g (r :: rest) s = some g' ∧
      f' = insertF f k (.obj g') := by
  simp only [s_SetValue] at h
  cases hl : lookupF f k with
  | none => rw [hl] at h; exact absurd h (by simp)
  | some v =>
    rw [hl] at h
    cases v with
    | undef => exact absurd h (by simp)
    | str _ => exact absurd h (by simp)
    | obj g =>
      simp only at h
      cases hs : s_SetValue g (r :: rest) s with
      | none => rw [hs] at h; exact absurd h (by simp)
      | some g' =>
        rw [hs] at h
        cases h
        exact ⟨g, g', rfl, hs, rfl⟩

/-- The same decomposition for a successful nested delete. -/
theorem s_DeleteValue_cons {f : JFields} {k r : String} {rest : List String}
    {f' : JFields} (h : s_DeleteValue f (k :: r :: rest) = some f') :
    ∃ g g', lookupF f k = some (.obj g) ∧ s_DeleteValue g (r :: rest) = some g' ∧
      f' = insertF f k (.obj g') := by
  simp only [s_DeleteValue] at h
  cases hl : lookupF f k with
  | none => rw [hl] at h; exact absurd h (by simp)
  | some v =>
    rw [hl] at h
    cases v with
    | undef => exact absurd h (by simp)
    | str _ => exact absurd h (by simp)
    | obj g =>
      simp only at h
      cases hs : s_DeleteValue g (r :: rest) with
      | none => rw [hs] at h; exact absurd h (by simp)
      | some g' =>
        rw [hs] at h
        cases h
        exact ⟨g, g', rfl, hs, rfl⟩

/-- A write touches the document only under its path. -/
theorem eqef_frame_set : ∀ {f : JFields} {p : List String} {s : Slot} {f' : JFields},
    s_SetValue f p s = some f' → EqEF [p] f f'
  | f, [k], s, f', h => by
    simp only [s_SetValue] at h
    cases h
    intro k'
    by_cases he : k' = k
    · subst he
      exact .maskedO _ _ _ (nil_mem_resid_single_self k')
    · rw [lookupF_insertF_ne f s.value he]
      exact eqeo_refl _ _
  | f, k :: r :: rest, s, f', h => by
    obtain ⟨g, g', hl, hs, hf'⟩ := s_SetValue_cons h
    subst hf'
    intro k'
    by_cases he : k' = k
    · subst he
      rw [hl, lookupF_insertF_self, resid_single_self]
      exact .bothSome _ _ _ (.objs _ g g' (eqef_frame_set hs))
    · rw [lookupF_insertF_ne f (JVal.obj g') he]
      exact eqeo_refl _ _

/-- A delete touches the document only under its path. -/
theorem eqef_frame_rawdel : ∀ {f : JFields} {p : List String} {f' : JFields},
    s_DeleteValue f p = some f' → EqEF [p] f f'
  | f, [k], f', h => by
    simp only [s_DeleteValue] at h
    cases h
    intro k'
    by_cases he : k' = k
    · subst he
      exact .maskedO _ _ _ (nil_mem_resid_single_self k')
    · rw [lookupF_eraseF_ne f he]
      exact eqeo_refl _ _
  | f, k :: r :: rest, f', h => by
    obtain ⟨g, g', hl, hs, hf'⟩ := s_DeleteValue_cons h
    subst hf'
    intro k'
    by_cases he : k' = k
    · subst he
      rw [hl, lookupF_insertF_self, resid_single_self]
      exact .bothSome _ _ _ (.objs _ g g' (eqef_frame_rawdel hs))
    · rw [lookupF_insertF_ne f (JVal.obj g') he]
      exact eqeo_refl _ _

/-- The conditional delete closure touches the document only under its
path. -/
theorem eqef_frame_delClosure {f : JFields} {p : List String} {f' : JFields}
    (h : delClosureF f p = some f') : EqEF [p] f f' := by
  simp only [delClosureF] at h
  split at h
  · split at h
    · exact eqef_frame_rawdel h
    · cases h
      exact eqef_refl _ _
  · exact absurd h (by simp)

/-- An action closure touches the document only at its location. -/
theorem applyClosure_frame {l : Loc} {v : Slot} {d d2 : Doc}
    (h : applyClosure l v d = some d2) : DocEqE [l] d d2 := by
  cases l with
  | objPath p =>
    simp only [applyClosure] at h
    by_cases he : v.exs = false
    · rw [if_pos he] at h
      cases hdc : delClosureF d.obj p with
      | none => rw [hdc] at h; exact absurd h (by simp)
      | some f2 =>
        rw [hdc] at h
        cases h
        exact ⟨by simpa [objMasks] using eqef_frame_delClosure hdc, fun k _ => rfl⟩
    · rw [if_neg he] at h
      cases hs : s_SetValue d.obj p v with
      | none => rw [hs] at h; exact absurd h (by simp)
      | some f2 =>
        rw [hs] at h
        cases h
        exact ⟨by simpa [objMasks] using eqef_frame_set hs, fun k _ => rfl⟩
  | mapKey key =>
    simp only [applyClosure] at h
    by_cases he : v.exs = false
    · rw [if_pos he] at h
      by_cases hl : (mapLookup d.map key).isSome
      · rw [if_pos hl] at h
        cases h
        refine ⟨by simpa [objMasks] using eqef_refl ([] : List (List String)) d.obj,
          fun j hj => ?_⟩
        have hne : j ≠ key := by
          intro hh
          exact hj (by simp [mapMasks, hh])
        exact (mapLookup_mapErase_ne d.map hne).symm
      · rw [if_neg hl] at h
        cases h
        exact ⟨by simpa [objMasks] using eqef_refl ([] : List (List String)) d.obj,
          fun j _ => rfl⟩
    · rw [if_neg he] at h
      cases h
      refine ⟨by simpa [objMasks] using eqef_refl ([] : List (List String)) d.obj,
        fun j hj => ?_⟩
      have hne : j ≠ key := by
        intro hh
        exact hj (by simp [mapMasks, hh])
      exact (mapLookup_mapInsert_ne d.map v.value hne).symm

/-- Unpacking a normal action application. -/
theorem apply_ok_closure {a : HistoryAction} {v : HistoryValue} {d dm : Doc}
    {em : List Nat} {n : Int} (h : a.apply v d = .ok dm em n) :
    applyClosure a.loc (slotFor a v) d = some dm ∧ em = a.m_Emits ∧
      ∃ dat, a.m_Data = some dat ∧ n = dat.entity_number := by
  unfold HistoryAction.apply at h
  cases hcl : applyClosure a.loc (slotFor a v) d with
  | none => rw [hcl] at h; exact absurd h (by simp)
  | some dm' =>
    rw [hcl] at h
    cases hd : a.m_Data with
    | none => rw [hd] at h; exact absurd h (by simp)
    | some dat =>
      rw [hd] at h
      simp only [ApplyResult.ok.injEq] at h
      obtain ⟨h1, h2, h3⟩ := h
      exact ⟨by rw [h1], h2.symm, dat, rfl, h3.symm⟩

/-- A run of actions touches the document only at the written locations. -/
theorem runActions_frame : ∀ {l : List HistoryAction} {v : HistoryValue} {d : Doc}
    {tr : List Nat} {d2 : Doc} {tr2 : List Nat},
    runActions l v d tr = .ok d2 tr2 → DocEqE (locsOf l) d d2
  | [], v, d, tr, d2, tr2, h => by
    cases h
    exact docEqE_refl _ _
  | a :: rest, v, d, tr, d2, tr2, h => by
    simp only [runActions] at h
    cases ha : a.apply v d with
    | fault dm em => rw [ha] at h; exact absurd h (by simp)
    | ok dm em n =>
      rw [ha] at h
      obtain ⟨hcl, _, _⟩ := apply_ok_closure ha
      have h1 : DocEqE [a.loc] d dm := applyClosure_frame hcl
      have h2 : DocEqE (locsOf rest) dm d2 := runActions_frame h
      have := docEqE_trans_append h1 h2
      simpa [locsOf] using this

theorem delClosureF_wf : ∀ {f : JFields} {p : List String} {f' : JFields},
    wfF f = true → delClosureF f p = some f' → wfF f' = true := by
  intro f p f' hwf h
  simp only [delClosureF] at h
  split at h
  · split at h
    · exact wfF_s_DeleteValue hwf h
    · cases h
      exact hwf
  · exact absurd h (by simp)

/-- A successful closure application preserves document well-formedness
when the written slot value is well-formed. -/
theorem applyClosure_wf {l : Loc} {v : Slot} {d d2 : Doc}
    (hwf : DocWF d = true) (hv : wfV v.value = true)
    (h : applyClosure l v d = some d2) : DocWF d2 = true := by
  cases l with
  | objPath p =>
    simp only [applyClosure] at h
    split at h
    · split at h
      · rename_i f2 hdc
        cases h
        exact DocWF_mk (delClosureF_wf (DocWF_obj hwf) hdc) (DocWF_map hwf)
      · exact absurd h (by simp)
    · split at h
      · rename_i f2 hs
        cases h
        exact DocWF_mk (wfF_s_SetValue (DocWF_obj hwf) hv hs) (DocWF_map hwf)
      · exact absurd h (by simp)
  | mapKey key =>
    simp only [applyClosure] at h
    split at h
    · split at h
      · cases h
        exact DocWF_mk (DocWF_obj hwf) (wfM_mapErase (DocWF_map hwf))
      · cases h
        exact hwf
    · cases h
      exact DocWF_mk (DocWF_obj hwf) (wfM_mapInsert (DocWF_map hwf))

theorem actionWF_slot {a : HistoryAction} (h : actionWF a = true) (v : HistoryValue) :
    wfV (slotFor a v).value = true := by
  simp only [actionWF, Bool.and_eq_true] at h
  cases v with
  | New => exact h.2
  | Old => exact h.1

/-- Running actions preserves document well-formedness. -/
theorem runActions_wf : ∀ {l : List HistoryAction} {v : HistoryValue} {d : Doc}
    {tr : List Nat} {d2 : Doc} {tr2 : List Nat},
    DocWF d = true → l.all actionWF = true →
    runActions l v d tr = .ok d2 tr2 → DocWF d2 = true
  | [], v, d, tr, d2, tr2, hwf, _, h => by
    cases h
    exact hwf
  | a :: rest, v, d, tr, d2, tr2, hwf, hall, h => by
    simp only [List.all_cons, Bool.and_eq_true] at hall
    simp only [runActions] at h
    cases ha : a.apply v d with
    | fault dm em => rw [ha] at h; exact absurd h (by simp)
    | ok dm em n =>
      rw [ha] at h
      obtain ⟨hcl, _, _⟩ := apply_ok_closure ha
      exact runActions_wf (applyClosure_wf hwf (actionWF_slot hall.1 v) hcl) hall.2 h

theorem resid_cons (k : String) (p : List String) (M : List (List String)) :
    resid ((k :: p) :: M) k = p :: resid M k := by
  simp [resid]

theorem resid_cons_ne {k k' : String} (p : List String) (M : List (List String))
    (h : k' ≠ k) : resid ((k :: p) :: M) k' = resid M k' := by
  have hne : ¬ (k = k') := fun hh => h hh.symm
  simp [resid, hne]

/-- The same write applied to two documents that agree outside the written
path (and a residual mask) leaves them agreeing outside the residual
mask alone. -/
theorem eqef_step_set : ∀ {p : List String} {fx fy fx' fy' : JFields} {s : Slot}
    {M : List (List String)},
    wfF fx = true → wfF fy = true →
    s_SetValue fx p s = some fx' → s_SetValue fy p s = some fy' →
    EqEF (p :: M) fx fy → EqEF M fx' fy'
  | [k], fx, fy, fx', fy', s, M, hwx, hwy, hx, hy, h => by
    simp only [s_SetValue] at hx hy
    cases hx
    cases hy
    intro k'
    by_cases he : k' = k
    · subst he
      rw [lookupF_insertF_self, lookupF_insertF_self]
      exact .bothSome _ _ _ (eqev_refl _ _)
    · rw [lookupF_insertF_ne fx s.value he, lookupF_insertF_ne fy s.value he]
      have hk := h k'
      rwa [resid_cons_ne _ _ he] at hk
  | k :: r :: rest, fx, fy, fx', fy', s, M, hwx, hwy, hx, hy, h => by
    obtain ⟨gx, gx', hlx, hsx, hfx⟩ := s_SetValue_cons hx
    obtain ⟨gy, gy', hly, hsy, hfy⟩ := s_SetValue_cons hy
    subst hfx
    subst hfy
    have hwgx : wfF gx = true := by
      have := wfV_lookupF hwx hlx
      rwa [wfV_obj] at this
    have hwgy : wfF gy = true := by
      have := wfV_lookupF hwy hly
      rwa [wfV_obj] at this
    intro k'
    by_cases he : k' = k
    · subst he
      rw [lookupF_insertF_self, lookupF_insertF_self]
      by_cases hmem : [] ∈ resid M k'
      · exact .maskedO _ _ _ hmem
      · have hk := h k'
        rw [resid_cons, hlx, hly] at hk
        cases hk with
        | maskedO _ _ _ hm =>
          rcases List.mem_cons.1 hm with hc | hc
          · exact absurd hc.symm (by simp)
          · exact absurd hc hmem
        | bothSome _ _ _ hvw =>
          cases hvw with
          | masked _ _ _ hm =>
            rcases List.mem_cons.1 hm with hc | hc
            · exact absurd hc.symm (by simp)
            · exact absurd hc hmem
          | objs _ _ _ hkk =>
            exact .bothSome _ _ _ (.objs _ gx' gy'
              (eqef_step_set hwgx hwgy hsx hsy hkk))
    · rw [lookupF_insertF_ne fx (JVal.obj gx') he, lookupF_insertF_ne fy (JVal.obj gy') he]
      have hk := h k'
      rwa [resid_cons_ne _ _ he] at hk

/-- The nested-path decomposition of a successful conditional delete. -/
theorem delClosureF_cons {f : JFields} {k r : String} {rest : List String}
    {f' : JFields} (hwf : wfF f = true)
    (h : delClosureF f (k :: r :: rest) = some f') :
    ∃ g g', lookupF f k = some (.obj g) ∧ delClosureF g (r :: rest) = some g' ∧
      f' = insertF f k (.obj g') := by
  simp only [delClosureF, s_GetValue] at h
  cases hl : lookupF f k with
  | none => rw [hl] at h; exact absurd h (by simp)
  | some v =>
    rw [hl] at h
    cases v with
    | undef => exact absurd h (by simp)
    | str _ => exact absurd h (by simp)
    | obj g =>
      simp only at h
      cases hg : s_GetValue g (r :: rest) with
      | none => rw [hg] at h; exact absurd h (by simp)
      | some cur =>
        rw [hg] at h
        simp only at h
        by_cases hex : cur.exs = true
        · rw [if_pos hex] at h
          obtain ⟨g₂, g₂', hl₂, hd₂, hf₂⟩ := s_DeleteValue_cons h
          rw [hl] at hl₂
          have hg₂ : g₂ = g := by
            injection hl₂ with hv
            injection hv with hf
            exact hf.symm
          rw [hg₂] at hd₂
          refine ⟨g, g₂', rfl, ?_, hf₂⟩
          simp only [delClosureF, hg, if_pos hex]
          exact hd₂
        · rw [if_neg hex] at h
          cases h
          refine ⟨g, g, rfl, ?_, ?_⟩
          · simp only [delClosureF, hg, if_neg hex]
          · rw [insertF_self_of_lookup hwf hl]

/-- The same conditional delete applied to two documents agreeing outside
the path (and a residual mask) leaves them agreeing outside the residual
mask. -/
theorem eqef_step_del : ∀ {p : List String} {fx fy fx' fy' : JFields}
    {M : List (List String)},
    wfF fx = true → wfF fy = true →
    delClosureF fx p = some fx' → delClosureF fy p = some fy' →
    EqEF (p :: M) fx fy → EqEF M fx' fy'
  | [k], fx, fy, fx', fy', M, hwx, hwy, hx, hy, h => by
    simp only [delClosureF, s_GetValue] at hx hy
    have hxe : fx' = (match lookupF fx k with
        | some _ => eraseF fx k
        | none => fx) := by
      cases hl : lookupF fx k with
      | some v => rw [hl] at hx; simp only [s_DeleteValue] at hx; cases hx; rfl
      | none => rw [hl] at hx; simp only at hx; cases hx; rfl
    have hye : fy' = (match lookupF fy k with
        | some _ => eraseF fy k
        | none => fy) := by
      cases hl : lookupF fy k with
      | some v => rw [hl] at hy; simp only [s_DeleteValue] at hy; cases hy; rfl
      | none => rw [hl] at hy; simp only at hy; cases hy; rfl
    subst hxe
    subst hye
    intro k'
    by_cases he : k' = k
    · subst he
      have hnx : lookupF (match lookupF fx k' with
          | some _ => eraseF fx k'
          | none => fx) k' = none := by
        cases hl : lookupF fx k' with
        | some v => simp only; exact lookupF_eraseF_self k' hwx
        | none => simp only; exact hl
      have hny : lookupF (match lookupF fy k' with
          | some _ => eraseF fy k'
          | none => fy) k' = none := by
        cases hl : lookupF fy k' with
        | some v => simp only; exact lookupF_eraseF_self k' hwy
        | none => simp only; exact hl
      rw [hnx, hny]
      exact .bothNone _
    · have hpx : lookupF (match lookupF fx k with
          | some _ => eraseF fx k
          | none => fx) k' = lookupF fx k' := by
        cases hl : lookupF fx k with
        | some v => simp only; exact lookupF_eraseF_ne fx he
        | none => simp only
      have hpy : lookupF (match lookupF fy k with
          | some _ => eraseF fy k
          | none => fy) k' = lookupF fy k' := by
        cases hl : lookupF fy k with
        | some v => simp only; exact lookupF_eraseF_ne fy he
        | none => simp only
      rw [hpx, hpy]
      have hk := h k'
      rwa [resid_cons_ne _ _ he] at hk
  | k :: r :: rest, fx, fy, fx', fy', M, hwx, hwy, hx, hy, h => by
    obtain ⟨gx, gx', hlx, hsx, hfx⟩ := delClosureF_cons hwx hx
    obtain ⟨gy, gy', hly, hsy, hfy⟩ := delClosureF_cons hwy hy
    subst hfx
    subst hfy
    have hwgx : wfF gx = true := by
      have := wfV_lookupF hwx hlx
      rwa [wfV_obj] at this
    have hwgy : wfF gy = true := by
      have := wfV_lookupF hwy hly
      rwa [wfV_obj] at this
    intro k'
    by_cases he : k' = k
    · subst he
      rw [lookupF_insertF_self, lookupF_insertF_self]
      by_cases hmem : [] ∈ resid M k'
      · exact .maskedO _ _ _ hmem
      · have hk := h k'
        rw [resid_cons, hlx, hly] at hk
        cases hk with
        | maskedO _ _ _ hm =>
          rcases List.mem_cons.1 hm with hc | hc
          · exact absurd hc.symm (by simp)
          · exact absurd hc hmem
        | bothSome _ _ _ hvw =>
          cases hvw with
          | masked _ _ _ hm =>
            rcases List.mem_cons.1 hm with hc | hc
            · exact absurd hc.symm (by simp)
            · exact absurd hc hmem
          | objs _ _ _ hkk =>
            exact .bothSome _ _ _ (.objs _ gx' gy'
              (eqef_step_del hwgx hwgy hsx hsy hkk))
    · rw [lookupF_insertF_ne fx (JVal.obj gx') he, lookupF_insertF_ne fy (JVal.obj gy') he]
      have hk := h k'
      rwa [resid_cons_ne _ _ he] at hk

theorem objMasks_cons_objPath (p : List String) (M : List Loc) :
    objMasks (Loc.objPath p :: M) = p :: objMasks M := by
  simp [objMasks]

theorem objMasks_cons_mapKey (k : Nat) (M : List Loc) :
    objMasks (Loc.mapKey k :: M) = objMasks M := by
  simp [objMasks]

theorem mapMasks_cons_objPath (p : List String) (M : List Loc) :
    mapMasks (Loc.objPath p :: M) = mapMasks M := by
  simp [mapMasks]

theorem mapMasks_cons_mapKey (k : Nat) (M : List Loc) :
    mapMasks (Loc.mapKey k :: M) = k :: mapMasks M := by
  simp [mapMasks]

/-- The same closure applied to two documents agreeing outside the written
location (and residual locations) leaves them agreeing outside the
residual locations. -/
theorem docEqE_step {l : Loc} {v : Slot} {x y x₂ y₂ : Doc} {M : List Loc}
    (hwx : DocWF x = true) (hwy : DocWF y = true)
    (hcx : applyClosure l v x = some x₂) (hcy : applyClosure l v y = some y₂)
    (he : DocEqE (l :: M) x y) : DocEqE M x₂ y₂ := by
  obtain ⟨hobj, hmap⟩ := he
  cases l with
  | objPath p =>
    rw [objMasks_cons_objPath] at hobj
    rw [mapMasks_cons_objPath] at hmap
    simp only [applyClosure] at hcx hcy
    split at hcx <;> rename_i hvx
    · split at hcx
      · rename_i fx2 hdx
        cases hcx
        rw [if_pos hvx] at hcy
        split at hcy
        · rename_i fy2 hdy
          cases hcy
          exact ⟨eqef_step_del (DocWF_obj hwx) (DocWF_obj hwy) hdx hdy hobj, hmap⟩
        · exact absurd hcy (by simp)
      · exact absurd hcx (by simp)
    · split at hcx
      · rename_i fx2 hsx
        cases hcx
        rw [if_neg hvx] at hcy
        split at hcy
        · rename_i fy2 hsy
          cases hcy
          exact ⟨eqef_step_set (DocWF_obj hwx) (DocWF_obj hwy) hsx hsy hobj, hmap⟩
        · exact absurd hcy (by simp)
      · exact absurd hcx (by simp)
  | mapKey key =>
    rw [objMasks_cons_mapKey] at hobj
    rw [mapMasks_cons_mapKey] at hmap
    have hxm : x₂.obj = x.obj ∧ x₂.map = (if v.exs = false then
        (if (mapLookup x.map key).isSome then mapErase x.map key else x.map)
        else mapInsert x.map key v.value) := by
      simp only [applyClosure] at hcx
      split at hcx
      · rename_i hv
        split at hcx
        · rename_i hl
          cases hcx
          simp [hv, hl]
        · rename_i hl
          cases hcx
          simp [hv, hl]
      · rename_i hv
        cases hcx
        simp [hv]
    have hym : y₂.obj = y.obj ∧ y₂.map = (if v.exs = false then
        (if (mapLookup y.map key).isSome then mapErase y.map key else y.map)
        else mapInsert y.map key v.value) := by
      simp only [applyClosure] at hcy
      split at hcy
      · rename_i hv
        split at hcy
        · rename_i hl
          cases hcy
          simp [hv, hl]
        · rename_i hl
          cases hcy
          simp [hv, hl]
      · rename_i hv
        cases hcy
        simp [hv]
    refine ⟨hxm.1 ▸ hym.1 ▸ hobj, fun j hj => ?_⟩
    rw [hxm.2, hym.2]
    by_cases hjk : j = key
    · subst hjk
      by_cases hv : v.exs = false
      · rw [if_pos hv, if_pos hv]
        have hnx : mapLookup (if (mapLookup x.map j).isSome then mapErase x.map j
            else x.map) j = none := by
          by_cases hl : (mapLookup x.map j).isSome
          · rw [if_pos hl]
            exact mapLookup_mapErase_self j (DocWF_map hwx)
          · rw [if_neg hl]
            cases hlx : mapLookup x.map j with
            | none => rfl
            | some w => rw [hlx] at hl; exact absurd rfl hl
        have hny : mapLookup (if (mapLookup y.map j).isSome then mapErase y.map j
            else y.map) j = none := by
          by_cases hl : (mapLookup y.map j).isSome
          · rw [if_pos hl]
            exact mapLookup_mapErase_self j (DocWF_map hwy)
          · rw [if_neg hl]
            cases hly : mapLookup y.map j with
            | none => rfl
            | some w => rw [hly] at hl; exact absurd rfl hl
        rw [hnx, hny]
      · rw [if_neg hv, if_neg hv]
        rw [mapLookup_mapInsert_self, mapLookup_mapInsert_self]
    · have hjm : j ∉ mapMasks M := fun hh => hj (by simp [hh])
      have hbase := hmap j (by
        intro hh
        rcases List.mem_cons.1 hh with hc | hc
        · exact hjk hc
        · exact hjm hc)
      by_cases hv : v.exs = false
      · rw [if_pos hv, if_pos hv]
        have hlx : mapLookup (if (mapLookup x.map key).isSome then mapErase x.map key
            else x.map) j = mapLookup x.map j := by
          split
          · exact mapLookup_mapErase_ne x.map hjk
          · rfl
        have hly : mapLookup (if (mapLookup y.map key).isSome then mapErase y.map key
            else y.map) j = mapLookup y.map j := by
          split
          · exact mapLookup_mapErase_ne y.map hjk
          · rfl
        rw [hlx, hly, hbase]
      · rw [if_neg hv, if_neg hv,
          mapLookup_mapInsert_ne x.map v.value hjk,
          mapLookup_mapInsert_ne y.map v.value hjk, hbase]

/-- Values with no mask that agree are equal (for well-formed values). -/
theorem eqev_nil_eq : ∀ (x : JVal) {y : JVal},
    wfV x = true → wfV y = true → EqEV [] x y → x = y
  | x, y, _, _, .masked _ _ _ hm => absurd hm (by simp)
  | _, _, _, _, .refl_undef _ => rfl
  | _, _, _, _, .refl_str _ _ => rfl
  | .obj fx, .obj fy, hwx, hwy, .objs _ _ _ hk => by
    rw [wfV_obj] at hwx hwy
    have hf : fx = fy := by
      refine extF hwx hwy (fun k => ?_)
      have hko := hk k
      generalize hgx : lookupF fx k = ox at hko ⊢
      generalize hgy : lookupF fy k = oy at hko ⊢
      cases hko with
      | bothNone _ => rfl
      | maskedO _ _ _ hm => simp [resid] at hm
      | bothSome _ v w hvw =>
        exact congrArg some (eqev_nil_eq v (wfV_lookupF hwx hgx)
          (wfV_lookupF hwy hgy) hvw)
    rw [hf]
termination_by x => sizeOf x
decreasing_by
  have := lookupF_sizeOf hgx
  simp
  omega

/-- Field lists with no mask that agree are equal (for well-formed
lists). -/
theorem eqef_nil_eq {fx fy : JFields} (hwx : wfF fx = true) (hwy : wfF fy = true)
    (h : EqEF [] fx fy) : fx = fy := by
  refine extF hwx hwy (fun k => ?_)
  have hko := h k
  generalize hgx : lookupF fx k = ox at hko ⊢
  generalize hgy : lookupF fy k = oy at hko ⊢
  cases hko with
  | bothNone _ => rfl
  | maskedO _ _ _ hm => simp [resid] at hm
  | bothSome _ v w hvw =>
    exact congrArg some (eqev_nil_eq v (wfV_lookupF hwx hgx) (wfV_lookupF hwy hgy) hvw)

/-- Documents with no mask that agree are equal (for well-formed
documents). -/
theorem docEqE_nil_eq {x y : Doc} (hwx : DocWF x = true) (hwy : DocWF y = true)
    (h : DocEqE [] x y) : x = y := by
  obtain ⟨hobj, hmap⟩ := h
  have h1 : x.obj = y.obj := eqef_nil_eq (DocWF_obj hwx) (DocWF_obj hwy)
    (by simpa [objMasks] using hobj)
  have h2 : x.map = y.map := extM (DocWF_map hwx) (DocWF_map hwy)
    (fun k => hmap k (by simp [mapMasks]))
  cases x
  cases y
  simp only at h1 h2
  rw [h1, h2]

/-- Running the same actions with direction `New` on two documents that
agree outside the written locations produces equal documents. -/
theorem runNew_agree : ∀ (l : List HistoryAction) {x y x₂ y₂ : Doc}
    {trx trx₂ try₁ try₂ : List Nat},
    DocWF x = true → DocWF y = true → l.all actionWF = true →
    DocEqE (locsOf l) x y →
    runActions l .New x trx = .ok x₂ trx₂ →
    runActions l .New y try₁ = .ok y₂ try₂ → x₂ = y₂
  | [], x, y, x₂, y₂, trx, trx₂, try₁, try₂, hwx, hwy, _, he, hx, hy => by
    cases hx
    cases hy
    exact docEqE_nil_eq hwx hwy (by simpa [locsOf] using he)
  | a :: rest, x, y, x₂, y₂, trx, trx₂, try₁, try₂, hwx, hwy, hall, he, hx, hy => by
    simp only [List.all_cons, Bool.and_eq_true] at hall
    simp only [runActions] at hx hy
    cases hax : a.apply .New x with
    | fault dm em => rw [hax] at hx; exact absurd hx (by simp)
    | ok dxm em n =>
      rw [hax] at hx
      cases hay : a.apply .New y with
      | fault dm em2 => rw [hay] at hy; exact absurd hy (by simp)
      | ok dym em2 n2 =>
        rw [hay] at hy
        obtain ⟨hclx, _, _⟩ := apply_ok_closure hax
        obtain ⟨hcly, _, _⟩ := apply_ok_closure hay
        have hstep : DocEqE (locsOf rest) dxm dym :=
          docEqE_step hwx hwy hclx hcly (by simpa [locsOf] using he)
        exact runNew_agree rest (applyClosure_wf hwx (actionWF_slot hall.1 .New) hclx)
          (applyClosure_wf hwy (actionWF_slot hall.1 .New) hcly) hall.2 hstep hx hy

/-- Two concrete auto-committed calls for the round-trip witness. -/
def exCallsC1 : List Call :=
  [.value ["name"] (.str "B") none (some exData) false,
   .map 1 (.str "x") none (some exData) false]

/-- The state reached by `exCallsC1` from `exState0`. -/
def exFinalC1 : HistState :=
  ⟨⟨.cons "name" (.str "B") .nil, [(1, .str "x")]⟩,
   [⟨none, [⟨⟨.str "A", true⟩, ⟨.str "B", true⟩, some exData, .objPath ["name"], []⟩]⟩,
    ⟨none, [⟨⟨.undef, false⟩, ⟨.str "x", true⟩, some exData, .mapKey 1, []⟩]⟩],
   2, none⟩

/-- Witness for C1: two concrete calls and two undos restore the target. -/
theorem C1_roundtrip_witness :
    doCalls exState0 exCallsC1 = some exFinalC1 ∧
    ∃ s'', undoN exCallsC1.length exFinalC1 = some s'' ∧ s''.doc = exState0.doc := by
  have hdo : doCalls exState0 exCallsC1 = some exFinalC1 := by
    simp only [doCalls, doCall, exCallsC1, updateValue, updateMap, mapOldSlot,
      s_CommitTransaction, popLoop_eq_take]
    rfl
  exact ⟨hdo, C1_roundtrip exCallsC1 exState0 exFinalC1 rfl (by simp [exState0]) rfl
    (by intro c hc; fin_cases hc <;> rfl) hdo⟩

/-! ## Claim theorems (C3, C4, C5, C6, C7, C8, C9, C10) -/

/-- C2: for every entry and every target state (well-formed, with genuine
JavaScript values in the entry's slots), applying the entry with direction
`New`, then `Old`, then `New` again — each application returning normally —
yields the same final target state as the single first application with
`New`: redo after undo is idempotent. -/
theorem C2_redo_after_undo (e : HistoryEntry) (d d1 d2 d3 : Doc)
    (tr1 tr2 tr3 : List Nat) (hwf : DocWF d = true) (hew : EntryWF e = true)
    (h1 : e.apply .New d = .ok d1 tr1) (h2 : e.apply .Old d1 = .ok d2 tr2)
    (h3 : e.apply .New d2 = .ok d3 tr3) : d3 = d1 := by
  unfold HistoryEntry.apply at h1 h2 h3
  unfold EntryWF at hew
  have hwf1 : DocWF d1 = true := runActions_wf hwf hew h1
  have hwf2 : DocWF d2 = true := runActions_wf hwf1 hew h2
  have f1 : DocEqE (locsOf e.m_Actions) d d1 := runActions_frame h1
  have f2 : DocEqE (locsOf e.m_Actions) d1 d2 := runActions_frame h2
  have f12 : DocEqE (locsOf e.m_Actions ++ locsOf e.m_Actions) d d2 :=
    docEqE_trans_append f1 f2
  have f' : DocEqE (locsOf e.m_Actions) d d2 := docEqE_weaken
    (by
      intro l hl
      rcases List.mem_append.1 hl with hc | hc
      · exact hc
      · exact hc) f12
  exact (runNew_agree e.m_Actions hwf hwf2 hew f' h1 h3).symm

/-- Witness for C2 on the two-action entry `exEntry2`. -/
theorem C2_redo_after_undo_witness :
    DocWF exDoc0 = true ∧ EntryWF exEntry2 = true ∧
    exEntry2.apply .New exDoc0 = .ok ⟨.nil, [(1, .str "n2")]⟩ [] ∧
    exEntry2.apply .Old ⟨.nil, [(1, .str "n2")]⟩ = .ok ⟨.nil, [(1, .str "y")]⟩ [] ∧
    exEntry2.apply .New ⟨.nil, [(1, .str "y")]⟩ = .ok ⟨.nil, [(1, .str "n2")]⟩ [] ∧
    (⟨.nil, [(1, .str "n2")]⟩ : Doc) = ⟨.nil, [(1, .str "n2")]⟩ :=
  ⟨rfl, rfl, rfl, rfl, rfl,
    C2_redo_after_undo exEntry2 exDoc0 ⟨.nil, [(1, .str "n2")]⟩ ⟨.nil, [(1, .str "y")]⟩
      ⟨.nil, [(1, .str "n2")]⟩ [] [] [] rfl rfl rfl rfl rfl⟩

/-- C3: for every history state in which `canRedo()` is true, committing a
new entry first discards every stored entry at index ≥ cursor, then
appends the new entry and increments the cursor by one; immediately
afterwards `canRedo()` is false. -/
theorem C3_commit_truncates_redo (s : HistState) (e : HistoryEntry)
    (h : canRedo s = true) :
    (s_CommitTransaction s e).s_HistoryEntries =
      s.s_HistoryEntries.take s.s_HistoryIndex ++ [e] ∧
    (s_CommitTransaction s e).s_HistoryIndex = s.s_HistoryIndex + 1 ∧
    canRedo (s_CommitTransaction s e) = false := by
  have hlt : s.s_HistoryIndex < s.s_HistoryEntries.length := by
    simpa [canRedo] using h
  refine ⟨by simp [s_CommitTransaction, popLoop_eq_take], rfl, ?_⟩
  simp only [canRedo, s_CommitTransaction, popLoop_eq_take, List.length_append,
    List.length_take, List.length_cons, List.length_nil, decide_eq_false_iff_not]
  omega

/-- Witness for C3 at a concrete state with one redoable entry. -/
theorem C3_commit_truncates_redo_witness :
    canRedo ⟨exDoc0, [⟨none, []⟩], 0, none⟩ = true ∧
    canRedo (s_CommitTransaction ⟨exDoc0, [⟨none, []⟩], 0, none⟩ ⟨some "t", []⟩) = false :=
  ⟨rfl, (C3_commit_truncates_redo ⟨exDoc0, [⟨none, []⟩], 0, none⟩ ⟨some "t", []⟩ rfl).2.2⟩

/-- C4: `startTransaction` returns false and performs no state change while
a transaction is already open; `commitTransaction` with no open
transaction is a no-op (it returns with the state unchanged). -/
theorem C4_transaction_edge_cases (s : HistState) (text : Option String) :
    (s.s_Transaction ≠ none → startTransaction s text = (false, s)) ∧
    (s.s_Transaction = none → commitTransaction s = .ok s) := by
  constructor
  · intro h
    cases ht : s.s_Transaction with
    | none => exact absurd ht h
    | some t => simp [startTransaction, ht]
  · intro h
    simp [commitTransaction, h]

/-- Witness for C4: a state with an open transaction and one without. -/
theorem C4_transaction_edge_cases_witness :
    startTransaction ⟨exDoc0, [], 0, some ⟨none, []⟩⟩ none =
      (false, ⟨exDoc0, [], 0, some ⟨none, []⟩⟩) ∧
    commitTransaction ⟨exDoc0, [], 0, none⟩ = .ok ⟨exDoc0, [], 0, none⟩ :=
  ⟨(C4_transaction_edge_cases ⟨exDoc0, [], 0, some ⟨none, []⟩⟩ none).1 (by simp),
   (C4_transaction_edge_cases ⟨exDoc0, [], 0, none⟩ none).2 rfl⟩

/-- C5: with `canUndo()` false, `undo()` and `getUndoPreview()` throw
(modelled as `fault`/`none`) rather than silently no-op, and the faulting
result carries the unchanged state (cursor and entry sequence intact);
with `canRedo()` false, `redo()` and `getRedoPreview()` do likewise. -/
theorem C5_guards_fail_loudly (s : HistState) :
    (canUndo s = false → undo s = .fault s ∧ getUndoPreview s = none) ∧
    (canRedo s = false → redo s = .fault s ∧ getRedoPreview s = none) := by
  constructor
  · intro h
    have h0 : s.s_HistoryIndex = 0 := by
      simpa [canUndo] using h
    exact ⟨by simp [undo, h0], by simp [getUndoPreview, h0]⟩
  · intro h
    have h0 : s.s_HistoryEntries.length ≤ s.s_HistoryIndex := by
      simpa [canRedo, Nat.not_lt] using h
    have hg : s.s_HistoryEntries.get? s.s_HistoryIndex = none :=
      List.get?_eq_none.2 h0
    have hg2 : s.s_HistoryEntries[s.s_HistoryIndex]? = none :=
      List.getElem?_eq_none h0
    exact ⟨by simp [redo, hg, hg2], by simp [getRedoPreview, hg, hg2]⟩

/-- Witness for C5 at the empty history. -/
theorem C5_guards_fail_loudly_witness :
    (undo exState0 = .fault exState0 ∧ getUndoPreview exState0 = none) ∧
    (redo exState0 = .fault exState0 ∧ getRedoPreview exState0 = none) :=
  ⟨(C5_guards_fail_loudly exState0).1 rfl, (C5_guards_fail_loudly exState0).2 rfl⟩

/-- C6: a callback registered with `emit` runs exactly once per `apply`
call, in either direction (hence on every later undo and redo), joins the
previously registered callbacks in registration order (the trace is the
registration list, newest last), and runs only after the value mutation
has been applied: the document recorded with the trace is the mutated
one. -/
theorem C6_emit_callbacks (a : HistoryAction) (f : Nat) (v : HistoryValue)
    {d d2 : Doc} (h : applyClosure a.loc (slotFor a v) d = some d2) :
    resTrace ((a.emit f).apply v d) = a.m_Emits ++ [f] ∧
    resDoc ((a.emit f).apply v d) = d2 := by
  have hloc : (a.emit f).loc = a.loc := rfl
  have hslot : slotFor (a.emit f) v = slotFor a v := by cases v <;> rfl
  simp only [HistoryAction.apply, hloc, hslot, h]
  cases hd : (a.emit f).m_Data with
  | none => simp [resTrace, resDoc, HistoryAction.emit]
  | some dat => simp [resTrace, resDoc, HistoryAction.emit]

/-- Witness for C6: a map-write action with one prior callback. -/
theorem C6_emit_callbacks_witness :
    resTrace ((HistoryAction.emit ⟨⟨.undef, false⟩, ⟨.str "v", true⟩, some exData, .mapKey 1, [7]⟩ 9).apply .New exDoc0) = [7, 9] ∧
    resDoc ((HistoryAction.emit ⟨⟨.undef, false⟩, ⟨.str "v", true⟩, some exData, .mapKey 1, [7]⟩ 9).apply .New exDoc0) = ⟨.nil, [(1, .str "v")]⟩ :=
  C6_emit_callbacks ⟨⟨.undef, false⟩, ⟨.str "v", true⟩, some exData, .mapKey 1, [7]⟩ 9 .New rfl

/-- C7: `undo()` of an entry with two or more actions applies the actions'
old values in forward (push) order — the same order `apply` uses — and not
in reverse order: on the concrete two-action entry `exEntry2` the
reverse-order application produces a different final document. -/
theorem C7_undo_forward_order :
    (∀ (e : HistoryEntry) (d : Doc), 2 ≤ e.m_Actions.length →
      e.undo d = e.apply .Old d) ∧
    exEntry2.undo exDoc0 ≠ runActions exEntry2.m_Actions.reverse .Old exDoc0 [] := by
  constructor
  · intro e d _
    exact runUndoLoop_eq_runActions e.m_Actions d []
  · intro h
    have h1 : exEntry2.undo exDoc0 = .ok ⟨.nil, [(1, .str "y")]⟩ [] := rfl
    have h2 : runActions exEntry2.m_Actions.reverse .Old exDoc0 [] =
        .ok ⟨.nil, [(1, .str "x")]⟩ [] := rfl
    rw [h1, h2] at h
    have hx : some (JVal.str "y") = some (JVal.str "x") := by
      have := congrArg (fun r => match r with
        | EntryResult.ok d _ => mapLookup d.map 1
        | EntryResult.fault d _ => mapLookup d.map 1) h
      exact this
    injection hx with hy
    injection hy with hs
    exact absurd hs (by decide)

/-- Witness for C7 on the two-action entry. -/
theorem C7_undo_forward_order_witness :
    2 ≤ exEntry2.m_Actions.length ∧ exEntry2.undo exDoc0 = exEntry2.apply .Old exDoc0 :=
  ⟨by decide, C7_undo_forward_order.1 exEntry2 exDoc0 (by decide)⟩

/-- Helper for C8: `updateValue` under an open transaction leaves the
committed entries and the cursor untouched in every outcome, and the
resulting document is the one produced by the new action's closure. -/
theorem updateValue_open_transaction (s : HistState) (t : HistoryEntry)
    (path : List String) (value : JVal) (text : Option String)
    (data : Option HData) (remove : Bool) (h : s.s_Transaction = some t) :
    (stateOf (updateValue s path value text data remove)).s_HistoryEntries = s.s_HistoryEntries ∧
    (stateOf (updateValue s path value text data remove)).s_HistoryIndex = s.s_HistoryIndex ∧
    (∀ d2, s_GetValue s.doc.obj path ≠ none →
      applyClosure (.objPath path) ⟨value, !remove⟩ s.doc = some d2 →
      (stateOf (updateValue s path value text data remove)).doc = d2) := by
  cases hg : s_GetValue s.doc.obj path with
  | none =>
    refine ⟨?_, ?_, fun d2 hne _ => absurd rfl hne⟩
    · simp [updateValue, hg, stateOf]
    · simp [updateValue, hg, stateOf]
  | some old =>
    simp only [updateValue, hg, h]
    cases ha : HistoryAction.apply ⟨old, ⟨value, !remove⟩, data, .objPath path, []⟩ .New s.doc with
    | ok d2 em n =>
      refine ⟨rfl, rfl, fun d3 _ hc => ?_⟩
      simp only [HistoryAction.apply, slotFor, hc] at ha
      cases hd : data with
      | some dat => rw [hd] at ha; cases ha; rfl
      | none => rw [hd] at ha; cases ha
    | fault d2 em =>
      refine ⟨rfl, rfl, fun d3 hne hc => ?_⟩
      simp only [HistoryAction.apply, slotFor, hc] at ha
      cases hd : data with
      | some dat => rw [hd] at ha; cases ha
      | none => rw [hd] at ha; cases ha; rfl

/-- Helper for C8: the same for `updateMap`. -/
theorem updateMap_open_transaction (s : HistState) (t : HistoryEntry)
    (key : Nat) (value : JVal) (text : Option String)
    (data : Option HData) (remove : Bool) (h : s.s_Transaction = some t) :
    (stateOf (updateMap s key value text data remove)).s_HistoryEntries = s.s_HistoryEntries ∧
    (stateOf (updateMap s key value text data remove)).s_HistoryIndex = s.s_HistoryIndex ∧
    (∀ d2, applyClosure (.mapKey key) ⟨value, !remove⟩ s.doc = some d2 →
      (stateOf (updateMap s key value text data remove)).doc = d2) := by
  simp only [updateMap, h]
  cases ha : HistoryAction.apply ⟨_, ⟨value, !remove⟩, data, .mapKey key, []⟩ .New s.doc with
  | ok d2 em n =>
    refine ⟨rfl, rfl, fun d3 hc => ?_⟩
    simp only [HistoryAction.apply, slotFor, hc] at ha
    cases hd : data with
    | some dat => rw [hd] at ha; cases ha; rfl
    | none => rw [hd] at ha; cases ha
  | fault d2 em =>
    refine ⟨rfl, rfl, fun d3 hc => ?_⟩
    simp only [HistoryAction.apply, slotFor, hc] at ha
    cases hd : data with
    | some dat => rw [hd] at ha; cases ha
    | none => rw [hd] at ha; cases ha; rfl

/-- C8: every mutation call made while a transaction is open applies its
action to the target immediately (the resulting document is the action
closure's output, visible before any commit), but leaves the History
Store entirely unchanged: neither the committed entry sequence nor the
cursor is modified, in any outcome. -/
theorem C8_open_transaction_frame (s : HistState) (t : HistoryEntry)
    (path : List String) (key : Nat) (value : JVal) (text : Option String)
    (data : Option HData) (remove : Bool) (h : s.s_Transaction = some t) :
    ((stateOf (updateValue s path value text data remove)).s_HistoryEntries = s.s_HistoryEntries ∧
     (stateOf (updateValue s path value text data remove)).s_HistoryIndex = s.s_HistoryIndex ∧
     (∀ d2, s_GetValue s.doc.obj path ≠ none →
       applyClosure (.objPath path) ⟨value, !remove⟩ s.doc = some d2 →
       (stateOf (updateValue s path value text data remove)).doc = d2)) ∧
    ((stateOf (updateMap s key value text data remove)).s_HistoryEntries = s.s_HistoryEntries ∧
     (stateOf (updateMap s key value text data remove)).s_HistoryIndex = s.s_HistoryIndex ∧
     (∀ d2, applyClosure (.mapKey key) ⟨value, !remove⟩ s.doc = some d2 →
       (stateOf (updateMap s key value text data remove)).doc = d2)) :=
  ⟨updateValue_open_transaction s t path value text data remove h,
   updateMap_open_transaction s t key value text data remove h⟩

/-- Witness for C8: concrete open-transaction calls on an empty document. -/
theorem C8_open_transaction_frame_witness :
    ((stateOf (updateValue ⟨exDoc0, [], 0, some ⟨none, []⟩⟩ ["k"] (.str "v") none none false)).s_HistoryEntries = [] ∧
     (stateOf (updateValue ⟨exDoc0, [], 0, some ⟨none, []⟩⟩ ["k"] (.str "v") none none false)).s_HistoryIndex = 0 ∧
     (stateOf (updateValue ⟨exDoc0, [], 0, some ⟨none, []⟩⟩ ["k"] (.str "v") none none false)).doc = ⟨.cons "k" (.str "v") .nil, []⟩) ∧
    ((stateOf (updateMap ⟨exDoc0, [], 0, some ⟨none, []⟩⟩ 1 (.str "w") none none false)).s_HistoryEntries = [] ∧
     (stateOf (updateMap ⟨exDoc0, [], 0, some ⟨none, []⟩⟩ 1 (.str "w") none none false)).s_HistoryIndex = 0 ∧
     (stateOf (updateMap ⟨exDoc0, [], 0, some ⟨none, []⟩⟩ 1 (.str "w") none none false)).doc = ⟨.nil, [(1, .str "w")]⟩) := by
  have hv := C8_open_transaction_frame ⟨exDoc0, [], 0, some ⟨none, []⟩⟩ ⟨none, []⟩
    ["k"] 1 (.str "v") none none false rfl
  have hm := C8_open_transaction_frame ⟨exDoc0, [], 0, some ⟨none, []⟩⟩ ⟨none, []⟩
    ["k"] 1 (.str "w") none none false rfl
  exact ⟨⟨hv.1.1, hv.1.2.1, hv.1.2.2 ⟨.cons "k" (.str "v") .nil, []⟩ (by simp [s_GetValue, lookupF]) rfl⟩,
         ⟨hm.2.1, hm.2.2.1, hm.2.2.2 ⟨.nil, [(1, .str "w")]⟩ rfl⟩⟩

/-- C9 (the code's actual behaviour on the specification's example): the
call `updateValue({name:'A'}, ['name'], 'B', 'rename')` — metadata
omitted, exactly as in the module's own usage examples — mutates the
target to `{name:'B'}` but then throws reading `m_Data.entity_number`
inside `HistoryEntry.apply`, before `s_CommitTransaction` runs; nothing is
committed, so `canUndo()` stays false and the subsequent `undo()` throws
as well, leaving the target at `{name:'B'}` instead of restoring
`{name:'A'}`. -/
theorem C9_example_throws_and_cannot_undo :
    updateValue exState0 ["name"] (.str "B") (some "rename") none false = .fault exStateB ∧
    canUndo exStateB = false ∧
    undo exStateB = .fault exStateB :=
  ⟨rfl, rfl, rfl⟩

/-- C10: `HistoryAction.apply` is total only under the precondition that
metadata was supplied: whenever the mutation closure succeeds, an action
without metadata throws at the `entity_number` read — with the target
mutation already applied and every emit already run (the fault carries
the mutated document and the full trace) — while an action with metadata
returns normally. -/
theorem C10_apply_needs_metadata (a : HistoryAction) (v : HistoryValue)
    {d d2 : Doc} (h : applyClosure a.loc (slotFor a v) d = some d2) :
    (a.m_Data = none → a.apply v d = .fault d2 a.m_Emits) ∧
    (∀ dat, a.m_Data = some dat → a.apply v d = .ok d2 a.m_Emits dat.entity_number) := by
  constructor
  · intro hd
    simp [HistoryAction.apply, h, hd]
  · intro dat hd
    simp [HistoryAction.apply, h, hd]

/-- Witness for C10: the metadata-less action built by the C9 example
call, faulting with the mutation already applied. -/
theorem C10_apply_needs_metadata_witness :
    HistoryAction.apply ⟨⟨.str "A", true⟩, ⟨.str "B", true⟩, none, .objPath ["name"], []⟩
      .New ⟨.cons "name" (.str "A") .nil, []⟩ =
      .fault ⟨.cons "name" (.str "B") .nil, []⟩ [] :=
  (C10_apply_needs_metadata ⟨⟨.str "A", true⟩, ⟨.str "B", true⟩, none, .objPath ["name"], []⟩
    .New rfl).1 rfl

end FBE
